import Mathlib

/-!
Verification of the `cloud-checksum` repository's digest-pipeline core.

This file shallowly embeds, in Lean 4, the parts of the Rust sources that the
behavioural claims are about:

* `src/checksum/aws_etag.rs` — the composite (AWS-ETag style) digest state
  machine: part-schedule parsing, part-size scheduling and normalization, the
  streaming `update`/`finalize` reducer, and canonical display;
* `src/checksum/file.rs` — the sums-manifest (`SumsFile`) model with
  `merge`/`merge_mut`, `is_same` and `comparable`;
* `src/task/check.rs` — the fixed-point grouping loop `merge_fn`.

Machine integers (`u64`/`usize`) are modelled as `Nat` with explicit
`< 2 ^ 64` bounds at the few places where Rust's overflow checking is
observable (integer parsing); fallible Rust functions returning
`Result<T, Error>` are modelled with `Except Err`; a Rust panic or an
infinite loop is modelled as `Option.none` of an `Option`-returning
function.  The digest primitives of `src/checksum/standard.rs` are not part
of the source tree; where they are needed they are modelled from the spec as
an abstract incremental hasher (a function from the accumulated bytes to a
digest), as noted on each such definition.
-/

namespace CloudChecksum

/-! ## Part-size normalization (`aws_etag.rs`) -/

/-- Forward pass of `AWSETagCtx::iterate_part_sizes` (aws_etag.rs lines
129-151): walk the declared part sizes consuming the file size; at the first
part where the remaining byte count fits, replace that part by the remaining
count and truncate the list after it.  Returns the (possibly truncated)
list together with the bytes still unconsumed. -/
def forwardPass : Nat → List Nat → List Nat × Nat
  | fileSize, [] => ([], fileSize)
  | fileSize, p :: ps =>
    if fileSize ≤ p then
      ([fileSize], 0)
    else
      let (ks, r) := forwardPass (fileSize - p) ps
      (p :: ks, r)

/-- The trailing `while file_size > 0` loop of
`AWSETagCtx::iterate_part_sizes` (aws_etag.rs lines 153-163): repeatedly push
the (fixed) last part size, or the remaining count when it is smaller, until
the remaining count is exhausted.  When `last = 0` and bytes remain the Rust
loop never terminates; that case is modelled as `none`. -/
def pushLoop (last : Nat) : Nat → Option (List Nat)
  | 0 => some []
  | r + 1 =>
    if h : last = 0 then
      none
    else if r + 1 < last then
      some [r + 1]
    else
      (pushLoop last (r + 1 - last)).map (fun ps => last :: ps)
  termination_by r => r
  decreasing_by
    simp only [not_lt] at *
    omega

/-- `AWSETagCtx::iterate_part_sizes` (aws_etag.rs lines 128-164): the forward
pass followed by the repeat-the-last-part loop. `none` models the
non-terminating `last = 0` case. -/
def iterate_part_sizes (fileSize : Nat) (partSizes : List Nat) :
    Option (List Nat) :=
  let pr := forwardPass fileSize partSizes
  (pushLoop (pr.1.getLastD 0) pr.2).map (fun ps => pr.1 ++ ps)

/-- The `retain` closure of `AWSETagCtx::remove_duplicates` (aws_etag.rs
lines 113-121): drop elements equal to `secondLast` until the first element
that differs, keep everything from there on (the `done` flag). -/
def retainFromBack (secondLast : Nat) : List Nat → Bool → List Nat
  | [], _ => []
  | p :: ps, done =>
    let done' := done || decide (p ≠ secondLast)
    if done' then
      p :: retainFromBack secondLast ps done'
    else
      retainFromBack secondLast ps done'

/-- `AWSETagCtx::remove_duplicates` (aws_etag.rs lines 94-126): if the list
has at least two elements and its last element is not greater than the second
last, pop the last element, collapse the trailing run equal to the second
last element, and re-push one copy of the second last element. -/
def remove_duplicates (partSizes : List Nat) : List Nat :=
  match partSizes.getLast?, (partSizes.dropLast).getLast? with
  | some last, some secondLast =>
    if secondLast < last then
      partSizes
    else
      let popped := partSizes.dropLast
      let trimmed := (retainFromBack secondLast popped.reverse false).reverse
      trimmed ++ [secondLast]
  | _, _ => partSizes

/-- `AWSETagCtx::update_part_sizes` (aws_etag.rs lines 84-91) specialised to
`PartMode::PartSizes`, with `fileSize` standing for
`self.file_size.unwrap_or(self.total_bytes)`: the forward pass followed by
the duplicate-suffix trim. -/
def update_part_sizes (fileSize : Nat) (partSizes : List Nat) :
    Option (List Nat) :=
  (iterate_part_sizes fileSize partSizes).map remove_duplicates


/-! ## The error type (`error.rs`) -/

/-- The error variants of `error.rs` that the embedded functions can
produce (`ParseError` from spec parsing and part scheduling,
`SumsFileError` from `SumsFile::merge`). -/
inductive Err where
  | parseError (msg : String)
  | sumsFileError (msg : String)
  deriving DecidableEq, Repr

/-! ## Spec strings, parsing and display (`aws_etag.rs`, `mod.rs`) -/

/-- Decimal digit characters of a natural number (the `Display` of a Rust
`u64`). -/
def natChars (n : Nat) : List Char :=
  if h : n < 10 then
    [Char.ofNat (48 + n)]
  else
    natChars (n / 10) ++ [Char.ofNat (48 + n % 10)]
  termination_by n
  decreasing_by
    exact Nat.div_lt_self (by omega) (by omega)

/-- The value of a decimal digit string (most significant first). -/
def digitsVal (cs : List Char) : Nat :=
  cs.foldl (fun a c => 10 * a + (c.toNat - 48)) 0

/-- `str::parse::<u64>` (Rust): an optional leading `+`, then one or more
decimal digits, failing on overflow past `2^64 - 1`. -/
def parse_u64 (cs : List Char) : Option Nat :=
  let cs' := if cs.head? = some '+' then cs.tail else cs
  if cs' ≠ [] ∧ cs'.all Char.isDigit ∧ digitsVal cs' < 2 ^ 64 then
    some (digitsVal cs')
  else
    none

/-- Byte-size unit multipliers, lower-cased.

Modelled from the spec: the `parse-size` crate used by
`AWSETagCtx::parse_part_size` is an external dependency; the spec describes
the schedule entries as "human-readable sizes like `100mib`".  The grammar
modelled here is digits followed by an optional unit (case-insensitive,
`KiB`-style binary or `KB`-style decimal, or a bare `b`). -/
def sizeMultiplier : List Char → Option Nat
  | [] => some 1
  | ['b'] => some 1
  | ['k', 'b'] => some 1000
  | ['k', 'i', 'b'] => some 1024
  | ['m', 'b'] => some 1000000
  | ['m', 'i', 'b'] => some 1048576
  | ['g', 'b'] => some 1000000000
  | ['g', 'i', 'b'] => some 1073741824
  | ['t', 'b'] => some 1000000000000
  | ['t', 'i', 'b'] => some 1099511627776
  | ['p', 'b'] => some 1000000000000000
  | ['p', 'i', 'b'] => some 1125899906842624
  | ['e', 'b'] => some 1000000000000000000
  | ['e', 'i', 'b'] => some 1152921504606846976
  | _ => none

/-- Modelled from the spec: `parse_size::parse_size` on the grammar above —
a non-empty digit prefix, an optional unit, failure on unknown units or on
overflow past `2^64 - 1`. -/
def parse_size (cs : List Char) : Option Nat :=
  let ds := cs.takeWhile Char.isDigit
  let unit := (cs.dropWhile Char.isDigit).map Char.toLower
  if ds = [] then
    none
  else
    match sizeMultiplier unit with
    | some mult =>
      let v := digitsVal ds * mult
      if v < 2 ^ 64 then some v else none
    | none => none

/-- Does `pat` occur as a contiguous subsequence? -/
def containsSeq (pat : List Char) : List Char → Bool
  | [] => pat.isPrefixOf ([] : List Char)
  | c :: rest => pat.isPrefixOf (c :: rest) || containsSeq pat rest

/-- `String::replace` (Rust): replace every non-overlapping occurrence of
`pat`, scanning left to right.  Fuelled by the string length (each step
consumes at least one character when `pat` is non-empty, so the fuel never
runs out for the patterns used here). -/
def replaceAllGo (pat repl : List Char) : Nat → List Char → List Char
  | 0, s => s
  | fuel + 1, s =>
    match s with
    | [] => []
    | c :: rest =>
      if pat.isPrefixOf (c :: rest) then
        repl ++ replaceAllGo pat repl fuel ((c :: rest).drop pat.length)
      else
        c :: replaceAllGo pat repl fuel rest

/-- `String::replace` (Rust) at its exact fuel. -/
def replaceAll (pat repl s : List Char) : List Char :=
  replaceAllGo pat repl s.length s

/-- `str::rsplitn(2, sep)` (Rust): split at the last occurrence of `sep`,
returning `(after, before)`; `none` when `sep` does not occur. -/
def rsplitLast (sep : List Char) : List Char → Option (List Char × List Char)
  | [] => if sep.isPrefixOf ([] : List Char) then some ([], []) else none
  | c :: rest =>
    match rsplitLast sep rest with
    | some (a, b) => some (a, c :: b)
    | none =>
      if sep.isPrefixOf (c :: rest) then
        some ((c :: rest).drop sep.length, [])
      else
        none

/-- `part_sizes.strip_prefix("etag-").unwrap_or(part_sizes)`
(aws_etag.rs line 262). -/
def stripEtag (cs : List Char) : List Char :=
  if ("etag-".data).isPrefixOf cs then cs.drop 5 else cs

/-- `PartMode` (aws_etag.rs lines 58-61). -/
inductive PartMode where
  | PartNumber (n : Nat)
  | PartSizes (sizes : List Nat)
  deriving DecidableEq, Repr

/-- The digest algorithms of the simple specs.

Modelled from the spec: `standard.rs` is not part of the source tree; §3 of
the spec lists the simple canonical forms `md5`, `sha1`, `sha256`, `crc32`,
`crc32c`. -/
inductive HashAlg where
  | md5
  | sha1
  | sha256
  | crc32
  | crc32c
  deriving DecidableEq, Repr

/-- Modelled from the spec: a `StandardCtx` (the C1 digest primitive of the
spec) is an incremental hasher — an algorithm tag plus the bytes absorbed so
far; `finalize` applies an abstract digest function to the buffer. -/
structure StandardCtx where
  alg : HashAlg
  buf : List Nat
  deriving DecidableEq, Repr

/-- Modelled from the spec: `StandardCtx::from_str` accepts the canonical
simple spec strings. -/
def StandardCtx.from_str (s : String) : Except Err StandardCtx :=
  if s = "md5" then .ok ⟨.md5, []⟩
  else if s = "sha1" then .ok ⟨.sha1, []⟩
  else if s = "sha256" then .ok ⟨.sha256, []⟩
  else if s = "crc32" then .ok ⟨.crc32, []⟩
  else if s = "crc32c" then .ok ⟨.crc32c, []⟩
  else .error (.parseError "unknown checksum algorithm")

/-- Modelled from the spec: the canonical display of a simple spec. -/
def HashAlg.name : HashAlg → String
  | .md5 => "md5"
  | .sha1 => "sha1"
  | .sha256 => "sha256"
  | .crc32 => "crc32"
  | .crc32c => "crc32c"

/-- `StandardCtx`'s `Display` is its canonical name. -/
def StandardCtx.display (self : StandardCtx) : String :=
  self.alg.name

/-- `AWSETagCtx` (aws_etag.rs lines 16-27); the inner `ctx` is the modelled
`StandardCtx` (algorithm tag and absorbed bytes). -/
structure AWSETagCtx where
  part_mode : PartMode
  part_size_index : Nat
  current_part_size : Nat
  current_bytes : Nat
  total_bytes : Nat
  remainder : Option (List Nat)
  part_checksums : List (Nat × List Nat)
  n_checksums : Nat
  ctx : StandardCtx
  file_size : Option Nat
  deriving DecidableEq, Repr

/-- `AWSETagCtx::new` (aws_etag.rs lines 65-78). -/
def AWSETagCtx.new (ctx : StandardCtx) (part_mode : PartMode)
    (file_size : Option Nat) : AWSETagCtx :=
  ⟨part_mode, 0, 0, 0, 0, none, [], 0, ctx, file_size⟩

/-- `AWSETagCtx::parse_part_size` (aws_etag.rs lines 248-286): substitute
`aws-etag` with `md5-aws`, default a bare `md5-aws` to `md5-aws-1`, split at
the last `-aws-`, strip an `etag-` prefix from the schedule, then read the
schedule as a positive part count (`u64`) or as a dash-separated list of
part sizes.  The algorithm side is demanded only after the schedule parses
(its absence is the `expected checksum algorithm` error). -/
def parse_part_size (s : String) : Except Err (String × PartMode) :=
  let s1 := replaceAll ("aws-etag".data) ("md5-aws".data) s.data
  let s2 := if s1 = "md5-aws".data then "md5-aws-1".data else s1
  let pieces := match rsplitLast ("-aws-".data) s2 with
    | some (a, b) => (a, some b)
    | none => (s2, none)
  let partStr := stripEtag pieces.1
  let modeE : Except Err PartMode :=
    match parse_u64 partStr with
    | some partNumber =>
      if partNumber = 0 then
        .error (.parseError "cannot use zero part number")
      else
        .ok (.PartNumber partNumber)
    | none =>
      match (partStr.splitOn '-').mapM parse_size with
      | some sizes => .ok (.PartSizes sizes)
      | none => .error (.parseError "invalid size")
  match modeE with
  | .error e => .error e
  | .ok mode =>
    match pieces.2 with
    | some alg => .ok (String.mk alg, mode)
    | none => .error (.parseError "expected checksum algorithm")

/-- `AWSETagCtx::from_str` (aws_etag.rs lines 370-379). -/
def AWSETagCtx.from_str (s : String) : Except Err AWSETagCtx :=
  match parse_part_size s with
  | .error e => .error e
  | .ok (algStr, part_mode) =>
    match StandardCtx.from_str algStr with
    | .error e => .error e
    | .ok ctx => .ok (AWSETagCtx.new ctx part_mode none)

/-- `Ctx` (mod.rs lines 22-25). -/
inductive Ctx where
  | Regular (ctx : StandardCtx)
  | AWSEtag (ctx : AWSETagCtx)
  deriving DecidableEq, Repr

/-- `Ctx::from_str` (mod.rs lines 113-124): try the AWS-ETag parse first and
fall back to a simple spec. -/
def Ctx.from_str (s : String) : Except Err Ctx :=
  match AWSETagCtx.from_str s with
  | .error _ => (StandardCtx.from_str s).map .Regular
  | .ok c => .ok (.AWSEtag c)

/-- `AWSETagCtx::part_number_to_size` (aws_etag.rs lines 352-354):
`file_size.div_ceil(part_number)`.  (Rust panics when `part_number = 0`,
which `parse_part_size` rules out.) -/
def part_number_to_size (part_number file_size : Nat) : Nat :=
  file_size / part_number + (if file_size % part_number = 0 then 0 else 1)

/-- `AWSETagCtx::next_part_size` (aws_etag.rs lines 298-320).  Returns the
size together with the updated context, because the `PartSizes` branch
advances (and pins) `part_size_index`. -/
def AWSETagCtx.next_part_size (self : AWSETagCtx) :
    Except Err (Nat × AWSETagCtx) :=
  match self.part_mode with
  | .PartSizes part_sizes =>
    match part_sizes.get? self.part_size_index with
    | none => .error (.parseError "expected part size")
    | some part_size =>
      if self.part_size_index ≠ part_sizes.length - 1 then
        .ok (part_size, { self with part_size_index := self.part_size_index + 1 })
      else
        .ok (part_size, self)
  | .PartNumber part_number =>
    match self.file_size with
    | none =>
      .error (.parseError "cannot use part number syntax without file size")
    | some fs => .ok (part_number_to_size part_number fs, self)

/-- `AWSETagCtx::format_parts` (aws_etag.rs lines 330-349); the
`PartNumber` branch panics (modelled as `none`) without a file size and
without a finalized checksum; each part size is rendered as `<bytes>b`
(`format_part_size`, lines 324-326). -/
def AWSETagCtx.format_parts (self : AWSETagCtx) : Option (List Char) :=
  match self.part_mode with
  | .PartNumber part_number =>
    if self.file_size = none ∧ self.n_checksums = 0 then
      none
    else
      let file_size := self.file_size.getD self.total_bytes
      some (natChars (part_number_to_size part_number file_size) ++ ['b'])
  | .PartSizes part_sizes =>
    some (List.intercalate ['-'] (part_sizes.map fun n => natChars n ++ ['b']))

/-- `Display for AWSETagCtx` (aws_etag.rs lines 381-385):
`"{ctx}-aws-{format_parts}"`; `none` models the `format_parts` panic. -/
def AWSETagCtx.display (self : AWSETagCtx) : Option String :=
  (self.format_parts).map fun p =>
    String.mk (self.ctx.display.data ++ ("-aws-".data) ++ p)

/-- The canonical composite spec string as the spec describes it
(§3: `<base>-aws-<schedule>`, every explicit part size rendered as a raw
byte count with a `b` suffix, joined by `-`). -/
def canonicalSpec (alg : HashAlg) (sizes : List Nat) : String :=
  String.mk (alg.name.data ++ ("-aws-".data) ++
    List.intercalate ['-'] (sizes.map fun n => natChars n ++ ['b']))

/-- `StandardCtx::update` — Modelled from the spec: the simple hasher of §2
absorbs bytes into an internal buffer (`standard.rs` is not part of the
source tree). -/
def StandardCtx.update (self : StandardCtx) (data : List Nat) : StandardCtx :=
  { self with buf := self.buf ++ data }

/-- `StandardCtx::finalize` — Modelled from the spec: an abstract digest
function `H` applied to the absorbed bytes. -/
def StandardCtx.finalize (H : List Nat → List Nat) (self : StandardCtx) :
    List Nat :=
  H self.buf

/-- `StandardCtx::reset` — Modelled from the spec: a fresh hasher of the same
algorithm. -/
def StandardCtx.reset (self : StandardCtx) : StandardCtx :=
  { self with buf := [] }

/-- `AWSETagCtx::update_with_remainder` (aws_etag.rs lines 207-214): absorb
any pending remainder bytes into the inner hasher and clear them. -/
def AWSETagCtx.update_with_remainder (self : AWSETagCtx) : AWSETagCtx :=
  match self.remainder with
  | some rem => { self with ctx := self.ctx.update rem, remainder := none }
  | none => self

/-- `AWSETagCtx::update` (aws_etag.rs lines 167-205): fill in the part size on
first use; when the incoming chunk crosses the current part boundary, hash the
prefix that completes the part, record the part checksum, stash the overflow
as the remainder and reset the hasher; otherwise absorb pending remainder
bytes and the whole chunk. -/
def AWSETagCtx.update (H : List Nat → List Nat) (self : AWSETagCtx)
    (data : List Nat) : Except Err AWSETagCtx :=
  let len := data.length
  let stepE : Except Err AWSETagCtx :=
    if self.current_part_size = 0 then
      match self.next_part_size with
      | .error e => .error e
      | .ok (ps, s') => .ok { s' with current_part_size := ps }
    else
      .ok self
  match stepE with
  | .error e => .error e
  | .ok self =>
    if self.current_bytes + len > self.current_part_size then
      let dataHead := data.take (self.current_part_size - self.current_bytes)
      let rem := data.drop (self.current_part_size - self.current_bytes)
      let ctx1 := self.ctx.update dataHead
      let selfA := { self with
        part_checksums :=
          self.part_checksums ++ [(self.current_part_size, ctx1.finalize H)],
        current_bytes := rem.length,
        remainder := some rem,
        ctx := ctx1.reset }
      match selfA.next_part_size with
      | .error e => .error e
      | .ok (ps, s') => .ok { s' with current_part_size := ps }
    else
      let selfB := self.update_with_remainder
      .ok { selfB with
        current_bytes := selfB.current_bytes + len,
        total_bytes := selfB.total_bytes + len,
        ctx := selfB.ctx.update data }

/-- `AWSETagCtx::update_part_sizes` (aws_etag.rs lines 84-91) acting on the
context: a `PartSizes` schedule is renormalized against
`file_size.unwrap_or(total_bytes)`; `none` models the non-terminating
zero-part case of the trailing push loop. -/
def AWSETagCtx.update_part_sizes (self : AWSETagCtx) : Option AWSETagCtx :=
  match self.part_mode with
  | .PartNumber _ => some self
  | .PartSizes part_sizes =>
    (CloudChecksum.update_part_sizes (self.file_size.getD self.total_bytes)
        part_sizes).map
      (fun ps => { self with part_mode := .PartSizes ps })

/-- `AWSETagCtx::finalize` (aws_etag.rs lines 218-244): flush the pending
part, normalize the schedule, then hash the concatenation of the part
digests.  Returns the top-level digest together with the final context. -/
def AWSETagCtx.finalize (H : List Nat → List Nat) (self : AWSETagCtx) :
    Option (List Nat × AWSETagCtx) :=
  let s1 :=
    if self.remainder.isSome ∨ self.current_bytes ≠ 0 then
      let s := self.update_with_remainder
      { s with
        part_checksums :=
          s.part_checksums ++ [(s.current_bytes, s.ctx.finalize H)],
        total_bytes := s.total_bytes + s.current_bytes,
        ctx := s.ctx.reset }
    else
      self
  match s1.update_part_sizes with
  | none => none
  | some s2 =>
    let s3 := { s2 with n_checksums := s2.part_checksums.length }
    let concat := (s3.part_checksums.map Prod.snd).flatten
    let ctx1 := s3.ctx.update concat
    some (ctx1.finalize H, { s3 with ctx := ctx1 })

/-- Fold `AWSETagCtx::update` over a chunking of the byte stream. -/
def AWSETagCtx.updateAll (H : List Nat → List Nat) :
    AWSETagCtx → List (List Nat) → Except Err AWSETagCtx
  | self, [] => .ok self
  | self, d :: ds =>
    match self.update H d with
    | .error e => .error e
    | .ok s' => s'.updateAll H ds

/-- A full composite digest run: a fresh `AWSETagCtx`, the chunked stream
through `update`, then `finalize`; `none` on any error. -/
def runAwsEtag (H : List Nat → List Nat) (mode : PartMode)
    (file_size : Option Nat) (chunks : List (List Nat)) : Option (List Nat) :=
  match (AWSETagCtx.new ⟨HashAlg.md5, []⟩ mode file_size).updateAll H chunks with
  | .error _ => none
  | .ok s => (s.finalize H).map Prod.fst

/-- The rendered schedule of a `PartSizes` composite spec: every part size as
`<bytes>b`, joined by `-` (`format_part_size`, aws_etag.rs lines 324-326,
under `format_parts`). -/
def renderParts (sizes : List Nat) : List Char :=
  List.intercalate ['-'] (sizes.map fun n => natChars n ++ ['b'])


/-! ## Comparator combinators (Rust derived `Ord`) -/

/-- Lexicographic comparator on lists (Rust's derived `Ord` for `Vec`). -/
def cmpList (c : α → α → Ordering) : List α → List α → Ordering
  | [], [] => .eq
  | [], _ :: _ => .lt
  | _ :: _, [] => .gt
  | a :: as, b :: bs => (c a b).then (cmpList c as bs)

/-- Comparator on `Option` (Rust's derived `Ord`: `None < Some`). -/
def cmpOption (c : α → α → Ordering) : Option α → Option α → Ordering
  | none, none => .eq
  | none, some _ => .lt
  | some _, none => .gt
  | some a, some b => c a b

/-- Compare through a projection. -/
def cmpOn (f : β → α) (c : α → α → Ordering) : β → β → Ordering :=
  fun x y => c (f x) (f y)

/-- Rust `char`/`str` ordering: by Unicode scalar value (equal to UTF-8
byte-wise order). -/
def cmpChar : Char → Char → Ordering :=
  cmpOn Char.toNat compare

/-- Rust `String` ordering: lexicographic on the character sequence. -/
def cmpString : String → String → Ordering :=
  cmpOn String.data (cmpList cmpChar)

/-! ## The sums-file manifest model (`file.rs`) -/

/-- `OUTPUT_FILE_VERSION` (file.rs line 16). -/
def OUTPUT_FILE_VERSION : String := "1"

/-- `PartChecksum` (file.rs lines 256-259): a part checksum with its part
size. -/
structure PartChecksum where
  part_size : Option Nat
  part_checksum : Option String
  deriving DecidableEq, Repr

/-- `Checksum` (file.rs lines 237-241): the output of one checksum — the
encoded top-level digest plus optional per-part digests
(`PartChecksums(Vec<PartChecksum>)` is inlined as a list). -/
structure Checksum where
  checksum : String
  part_checksums : Option (List PartChecksum)
  deriving DecidableEq, Repr

/-- `SumsFile` (file.rs lines 88-97): version, optional total size, and the
`BTreeMap<Ctx, Checksum>` of checksums.  The map is modelled as a list of
(key, value) entries kept in ascending key order; per the comment on the
field, the key is the canonical display string of the `Ctx`, so keys are
modelled as `String`. -/
structure SumsFile where
  version : String
  size : Option Nat
  checksums : List (String × Checksum)
  deriving DecidableEq, Repr

/-- `BTreeMap::insert`: replace the value of an existing key (keeping its
position in key order), or insert a new key at its ordered position; keys
compare by `Ord::cmp` on the canonical spec string (byte-wise). -/
def btreeInsert (k : String) (v : Checksum) :
    List (String × Checksum) → List (String × Checksum)
  | [] => [(k, v)]
  | (k', v') :: t =>
    match cmpString k k' with
    | .lt => (k, v) :: (k', v') :: t
    | .eq => (k, v) :: t
    | .gt => (k', v') :: btreeInsert k v t

/-- `BTreeMap::get`: the value stored at a key. -/
def btreeGet (k : String) : List (String × Checksum) → Option Checksum
  | [] => none
  | (k', v') :: t => if k = k' then some v' else btreeGet k t

/-- `SumsFile::merge_mut` (file.rs lines 157-161): insert every checksum
entry of `other` into `self`'s map, overwriting on key collision.  The
`version` and `size` fields are untouched. -/
def SumsFile.merge_mut (self other : SumsFile) : SumsFile :=
  { self with
    checksums :=
      other.checksums.foldl (fun acc kv => btreeInsert kv.1 kv.2 acc)
        self.checksums }

/-- `SumsFile::merge` (file.rs lines 144-153): error when the sizes differ
and both checksum maps are non-empty; otherwise `merge_mut`. -/
def SumsFile.merge (self other : SumsFile) : Except Err SumsFile :=
  if self.size ≠ other.size ∧ self.checksums ≠ [] ∧ other.checksums ≠ [] then
    .error (.sumsFileError "the size of output files do not match")
  else
    .ok (self.merge_mut other)

/-- `SumsFile::is_same` (file.rs lines 178-195): false when the sizes
differ; otherwise true exactly when some entry of `self` has a counterpart
in `other` under the same key with an identical top-level checksum string
(the per-part checksums are not consulted). -/
def SumsFile.is_same (self other : SumsFile) : Bool :=
  if self.size ≠ other.size then
    false
  else
    self.checksums.any fun kv =>
      match btreeGet kv.1 other.checksums with
      | some otherChecksum => kv.2.checksum == otherChecksum.checksum
      | none => false

/-- `SumsFile::comparable` (file.rs lines 199-207): false when the sizes
differ; otherwise true exactly when the key sets intersect. -/
def SumsFile.comparable (self other : SumsFile) : Bool :=
  if self.size ≠ other.size then
    false
  else
    self.checksums.any fun kv => (btreeGet kv.1 other.checksums).isSome

/-- Forget every `part_checksums` field of a manifest (used to state that
`is_same` never consults per-part checksums). -/
def SumsFile.stripParts (self : SumsFile) : SumsFile :=
  { self with
    checksums := self.checksums.map fun kv => (kv.1, { kv.2 with part_checksums := none }) }

/-- Two manifests are value-consistent when any key they share carries the
same top-level checksum string in both. -/
def consistentWith (a b : SumsFile) : Prop :=
  ∀ k va vb, btreeGet k a.checksums = some va →
    btreeGet k b.checksums = some vb → va.checksum = vb.checksum

/-! ## Concrete comparators and the sort order on sums files -/

/-- Rust's derived `Ord` for `PartChecksum` (fields in declaration order). -/
def cmpPartChecksum : PartChecksum → PartChecksum → Ordering :=
  compareLex (cmpOn PartChecksum.part_size (cmpOption compare))
    (cmpOn PartChecksum.part_checksum (cmpOption cmpString))

/-- Rust's derived `Ord` for `Checksum` (fields in declaration order;
`PartChecksums(Vec<PartChecksum>)` compares as the inner vector). -/
def cmpChecksum : Checksum → Checksum → Ordering :=
  compareLex (cmpOn Checksum.checksum cmpString)
    (cmpOn Checksum.part_checksums (cmpOption (cmpList cmpPartChecksum)))

/-- Rust's derived `Ord` for a `BTreeMap` entry `(Ctx, Checksum)` (the map
compares as its ascending entry sequence). -/
def cmpEntry : String × Checksum → String × Checksum → Ordering :=
  compareLex (cmpOn Prod.fst cmpString) (cmpOn Prod.snd cmpChecksum)

/-- Rust's derived `Ord` for `SumsFile` (fields in declaration order:
`version`, `size`, `checksums`). -/
def cmpSumsFile : SumsFile → SumsFile → Ordering :=
  compareLex (cmpOn SumsFile.version cmpString)
    (compareLex (cmpOn SumsFile.size (cmpOption compare))
      (cmpOn SumsFile.checksums (cmpList cmpEntry)))

/-- The sorting relation of `Vec::sort` for `SumsFile` (`a ≤ b`). -/
def sumsLe (a b : SumsFile) : Prop := cmpSumsFile a b ≠ .gt

instance : DecidableRel sumsLe := fun a b => by
  unfold sumsLe
  infer_instance

/-! ## The check-task fixed-point merge loop (`check.rs`) -/

/-- `Vec::sort` on sums files (check.rs line 112/135): a stable sort by the
derived `SumsFile` order; modelled as insertion sort, which produces the
same list because the order is total and antisymmetric. -/
def sortFiles (files : List SumsFile) : List SumsFile :=
  files.insertionSort sumsLe

/-- The inner `for b in self.files.iter_mut()` loop of `CheckTask::merge_fn`
(check.rs lines 123-128): find the first remaining sums file `b` with
`compare(&a, b)` and merge `a` into it (`b.merge_mut(a)`); `none` when no
`b` accepts `a`. -/
def mergeIntoFirst (cmpf : SumsFile → SumsFile → Bool) (a : SumsFile) :
    List SumsFile → Option (List SumsFile)
  | [] => none
  | b :: t =>
    if cmpf a b then
      some (b.merge_mut a :: t)
    else
      (mergeIntoFirst cmpf a t).map fun t' => b :: t'

/-- The `'outer: while let Some(a) = self.files.pop()` loop of
`CheckTask::merge_fn` (check.rs lines 121-132), structured on an explicit
iteration count: pop sums files from the back; merge each into the first
accepting file, or park it in `reprocess`.  Each pass removes exactly one
element, so running it with `fuel = files.length` (as `mergeStep` below
does) reproduces the Rust loop exactly. -/
def mergeStepGo (cmpf : SumsFile → SumsFile → Bool) :
    Nat → List SumsFile → List SumsFile → List SumsFile
  | 0, _, reprocess => reprocess
  | fuel + 1, files, reprocess =>
    if hne : files = [] then
      reprocess
    else
      match mergeIntoFirst cmpf (files.getLast hne) files.dropLast with
      | some rest' => mergeStepGo cmpf fuel rest' reprocess
      | none =>
        mergeStepGo cmpf fuel files.dropLast (reprocess ++ [files.getLast hne])

/-- The pop-and-merge loop at its exact iteration count. -/
def mergeStep (cmpf : SumsFile → SumsFile → Bool)
    (files reprocess : List SumsFile) : List SumsFile :=
  mergeStepGo cmpf files.length files reprocess

/-- One iteration of the fixed-point loop body of `CheckTask::merge_fn`
(check.rs lines 118-135): process every file once, then
`self.files = reprocess; self.files.sort()`. -/
def mergeOnce (cmpf : SumsFile → SumsFile → Bool) (files : List SumsFile) :
    List SumsFile :=
  sortFiles (mergeStep cmpf files [])

/-- The `while prev_state != state` loop of `CheckTask::merge_fn` (check.rs
lines 117-140), fuelled: run iterations until the hash of the file list is
unchanged across an iteration; `none` when the fuel runs out first.  `hash`
stands for the `DefaultHasher` of `std` (not part of the source tree), so it
is an arbitrary function parameter. -/
def mergeLoop (cmpf : SumsFile → SumsFile → Bool)
    (hash : List SumsFile → Nat) : Nat → List SumsFile → Option (List SumsFile)
  | 0, _ => none
  | fuel + 1, files =>
    let files' := mergeOnce cmpf files
    if hash files' = hash files then some files'
    else mergeLoop cmpf hash fuel files'

/-- `CheckTask::merge_fn` (check.rs lines 105-143): initial sort (line 112,
after which `prev_state != state` always holds once), then the fixed-point
loop. -/
def merge_fn (cmpf : SumsFile → SumsFile → Bool)
    (hash : List SumsFile → Nat) (fuel : Nat) (files : List SumsFile) :
    Option (List SumsFile) :=
  mergeLoop cmpf hash fuel (sortFiles files)

/-- `CheckTask::merge_same` (check.rs lines 149-152): the loop under the
`is_same` relation. -/
def merge_same (hash : List SumsFile → Nat) (fuel : Nat)
    (files : List SumsFile) : Option (List SumsFile) :=
  merge_fn (fun a b => a.is_same b) hash fuel files

/-! ## Order properties of the comparators -/

instance instOrientedCmpOn (f : β → α) (c : α → α → Ordering)
    [Batteries.OrientedCmp c] : Batteries.OrientedCmp (cmpOn f c) where
  symm x y := @Batteries.OrientedCmp.symm _ c _ (f x) (f y)

instance instTransCmpOn (f : β → α) (c : α → α → Ordering)
    [Batteries.TransCmp c] : Batteries.TransCmp (cmpOn f c) where
  le_trans h1 h2 := @Batteries.TransCmp.le_trans _ c _ _ _ _ h1 h2

instance instOrientedCmpList (c : α → α → Ordering)
    [Batteries.OrientedCmp c] : Batteries.OrientedCmp (cmpList c) where
  symm x y := by
    induction x generalizing y with
    | nil => cases y <;> rfl
    | cons a as ih =>
      cases y with
      | nil => rfl
      | cons b bs =>
        show ((c a b).then (cmpList c as bs)).swap = (c b a).then (cmpList c bs as)
        rw [Ordering.swap_then, Batteries.OrientedCmp.symm, ih]

instance instTransCmpList (c : α → α → Ordering)
    [Batteries.TransCmp c] : Batteries.TransCmp (cmpList c) where
  le_trans := by
    intro x y z h1 h2
    induction x generalizing y z with
    | nil =>
      cases z with
      | nil => simp [cmpList]
      | cons d ds => simp [cmpList]
    | cons a as ih =>
      cases y with
      | nil => cases z <;> exact absurd h1 (by simp [cmpList])
      | cons b bs =>
        cases z with
        | nil => exact absurd h2 (by simp [cmpList])
        | cons d ds =>
          show ((c a d).then (cmpList c as ds)) ≠ .gt
          have h1' : ((c a b).then (cmpList c as bs)) ≠ .gt := h1
          have h2' : ((c b d).then (cmpList c bs ds)) ≠ .gt := h2
          rw [Ne, Ordering.then_eq_gt, not_or, not_and] at h1' h2' ⊢
          obtain ⟨hab, hab2⟩ := h1'
          obtain ⟨hbd, hbd2⟩ := h2'
          constructor
          · exact Batteries.TransCmp.le_trans hab hbd
          · intro had
            rcases hcab : c a b with _ | _ | _
            · have : c a d = .lt := Batteries.TransCmp.lt_le_trans hcab hbd
              rw [this] at had
              cases had
            · rcases hcbd : c b d with _ | _ | _
              · have : c a d = c b d := Batteries.TransCmp.cmp_congr_left hcab
                rw [this, hcbd] at had
                cases had
              · exact ih (hab2 hcab) (hbd2 hcbd)
              · exact absurd hcbd hbd
            · exact absurd hcab hab

instance instOrientedCmpOption (c : α → α → Ordering)
    [Batteries.OrientedCmp c] : Batteries.OrientedCmp (cmpOption c) where
  symm x y := by
    cases x <;> cases y <;> first
      | rfl
      | exact @Batteries.OrientedCmp.symm _ c _ _ _

instance instTransCmpOption (c : α → α → Ordering)
    [Batteries.TransCmp c] : Batteries.TransCmp (cmpOption c) where
  le_trans := by
    intro x y z h1 h2
    cases x <;> cases y <;> cases z <;>
      simp_all [cmpOption] <;>
      exact Batteries.TransCmp.le_trans h1 h2

theorem cmpList_eq_iff (c : α → α → Ordering)
    (hc : ∀ a b, c a b = .eq ↔ a = b) :
    ∀ l1 l2, cmpList c l1 l2 = .eq ↔ l1 = l2 := by
  intro l1
  induction l1 with
  | nil => intro l2; cases l2 <;> simp [cmpList]
  | cons a as ih =>
    intro l2
    cases l2 with
    | nil => simp [cmpList]
    | cons b bs =>
      show ((c a b).then (cmpList c as bs)) = .eq ↔ _
      rw [Ordering.then_eq_eq, hc, ih]
      simp

theorem cmpOption_eq_iff (c : α → α → Ordering)
    (hc : ∀ a b, c a b = .eq ↔ a = b) :
    ∀ o1 o2, cmpOption c o1 o2 = .eq ↔ o1 = o2 := by
  intro o1 o2
  cases o1 <;> cases o2 <;> simp [cmpOption, hc]

theorem cmpChar_eq_iff (a b : Char) : cmpChar a b = .eq ↔ a = b := by
  unfold cmpChar cmpOn
  rw [Nat.compare_eq_eq]
  constructor
  · intro h
    exact Char.eq_of_val_eq (UInt32.ext h)
  · intro h
    rw [h]

theorem cmpString_eq_iff (a b : String) : cmpString a b = .eq ↔ a = b := by
  unfold cmpString cmpOn
  rw [cmpList_eq_iff cmpChar cmpChar_eq_iff]
  exact String.ext_iff.symm

instance instTransCmpChar : Batteries.TransCmp cmpChar := by
  unfold cmpChar
  infer_instance

instance instTransCmpString : Batteries.TransCmp cmpString := by
  unfold cmpString
  infer_instance

instance instTransCmpPartChecksum : Batteries.TransCmp cmpPartChecksum := by
  unfold cmpPartChecksum
  infer_instance

instance instTransCmpChecksum : Batteries.TransCmp cmpChecksum := by
  unfold cmpChecksum
  infer_instance

instance instTransCmpEntry : Batteries.TransCmp cmpEntry := by
  unfold cmpEntry
  infer_instance

instance instTransCmpSumsFile : Batteries.TransCmp cmpSumsFile := by
  unfold cmpSumsFile
  infer_instance

theorem compareLex_eq_iff (c1 c2 : α → α → Ordering)
    (h : ∀ a b, c1 a b = .eq → c2 a b = .eq → a = b)
    (hr1 : ∀ a, c1 a a = .eq) (hr2 : ∀ a, c2 a a = .eq) :
    ∀ a b, compareLex c1 c2 a b = .eq ↔ a = b := by
  intro a b
  rw [compareLex, Ordering.then_eq_eq]
  constructor
  · rintro ⟨h1, h2⟩
    exact h a b h1 h2
  · rintro rfl
    exact ⟨hr1 a, hr2 a⟩

theorem cmpPartChecksum_eq_iff (a b : PartChecksum) :
    cmpPartChecksum a b = .eq ↔ a = b := by
  unfold cmpPartChecksum
  apply compareLex_eq_iff
  · intro x y h1 h2
    rw [cmpOn, cmpOption_eq_iff compare (fun a b => Nat.compare_eq_eq) _ _] at h1
    rw [cmpOn, cmpOption_eq_iff cmpString cmpString_eq_iff _ _] at h2
    cases x
    cases y
    simp_all
  · intro x
    rw [cmpOn, cmpOption_eq_iff compare (fun a b => Nat.compare_eq_eq) _ _]
  · intro x
    rw [cmpOn, cmpOption_eq_iff cmpString cmpString_eq_iff _ _]

theorem cmpChecksum_eq_iff (a b : Checksum) :
    cmpChecksum a b = .eq ↔ a = b := by
  unfold cmpChecksum
  apply compareLex_eq_iff
  · intro x y h1 h2
    rw [cmpOn, cmpString_eq_iff] at h1
    rw [cmpOn, cmpOption_eq_iff (cmpList cmpPartChecksum)
      (cmpList_eq_iff cmpPartChecksum cmpPartChecksum_eq_iff) _ _] at h2
    cases x
    cases y
    simp_all
  · intro x
    rw [cmpOn, cmpString_eq_iff]
  · intro x
    rw [cmpOn, cmpOption_eq_iff (cmpList cmpPartChecksum)
      (cmpList_eq_iff cmpPartChecksum cmpPartChecksum_eq_iff) _ _]

theorem cmpEntry_eq_iff (a b : String × Checksum) :
    cmpEntry a b = .eq ↔ a = b := by
  unfold cmpEntry
  apply compareLex_eq_iff
  · intro x y h1 h2
    rw [cmpOn, cmpString_eq_iff] at h1
    rw [cmpOn, cmpChecksum_eq_iff] at h2
    cases x
    cases y
    simp_all
  · intro x
    rw [cmpOn, cmpString_eq_iff]
  · intro x
    rw [cmpOn, cmpChecksum_eq_iff]

theorem cmpSumsFile_eq_iff (a b : SumsFile) :
    cmpSumsFile a b = .eq ↔ a = b := by
  unfold cmpSumsFile
  apply compareLex_eq_iff
  · intro x y h1 h2
    rw [cmpOn, cmpString_eq_iff] at h1
    rw [compareLex, Ordering.then_eq_eq] at h2
    obtain ⟨h2, h3⟩ := h2
    rw [cmpOn, cmpOption_eq_iff compare (fun a b => Nat.compare_eq_eq) _ _] at h2
    rw [cmpOn, cmpList_eq_iff cmpEntry cmpEntry_eq_iff] at h3
    cases x
    cases y
    simp_all
  · intro x
    rw [cmpOn, cmpString_eq_iff]
  · intro x
    rw [compareLex, Ordering.then_eq_eq]
    constructor
    · rw [cmpOn, cmpOption_eq_iff compare (fun a b => Nat.compare_eq_eq) _ _]
    · rw [cmpOn, cmpList_eq_iff cmpEntry cmpEntry_eq_iff]

instance : IsTotal SumsFile sumsLe where
  total a b := by
    unfold sumsLe
    rcases h : cmpSumsFile a b with _ | _ | _
    · exact Or.inl (by simp [h])
    · exact Or.inl (by simp [h])
    · refine Or.inr ?_
      have := Batteries.OrientedCmp.cmp_eq_gt.mp h
      simp [this]

instance : IsTrans SumsFile sumsLe where
  trans a b c h1 h2 := Batteries.TransCmp.le_trans h1 h2

instance : IsAntisymm SumsFile sumsLe where
  antisymm a b h1 h2 := by
    unfold sumsLe at h1 h2
    rw [← cmpSumsFile_eq_iff]
    have hsw := @Batteries.OrientedCmp.symm _ cmpSumsFile _ a b
    rcases h : cmpSumsFile a b with _ | _ | _
    · rw [h] at hsw
      exact absurd hsw.symm h2
    · rfl
    · exact absurd h h1

instance : IsRefl SumsFile sumsLe where
  refl a := by
    unfold sumsLe
    rw [(cmpSumsFile_eq_iff a a).mpr rfl]
    simp

/-! ## Supporting lemmas: part-size normalization -/


theorem pushLoop_sum (last : Nat) : ∀ r ps, pushLoop last r = some ps → ps.sum = r := by
  intro r
  induction r using Nat.strong_induction_on with
  | _ r ih =>
    intro ps h
    match r with
    | 0 =>
      rw [pushLoop] at h
      cases h
      rfl
    | r + 1 =>
      rw [pushLoop] at h
      split at h
      · exact absurd h (by simp)
      · split at h
        · simp at h; simp [← h]
        · simp only [Option.map_eq_some'] at h
          obtain ⟨ps', hps', rfl⟩ := h
          have := ih (r + 1 - last) (by omega) ps' hps'
          simp [List.sum_cons, this]
          omega

theorem pushLoop_pos (last : Nat) :
    ∀ r ps, pushLoop last r = some ps → ∀ x ∈ ps, 0 < x := by
  intro r
  induction r using Nat.strong_induction_on with
  | _ r ih =>
    intro ps h
    match r with
    | 0 =>
      rw [pushLoop] at h
      cases h
      simp
    | r + 1 =>
      rw [pushLoop] at h
      split at h
      · exact absurd h (by simp)
      · next hlast =>
        split at h
        · simp at h
          simp [← h]
        · simp only [Option.map_eq_some'] at h
          obtain ⟨ps', hps', rfl⟩ := h
          intro x hx
          rcases List.mem_cons.mp hx with rfl | hx'
          · omega
          · exact ih (r + 1 - last) (by omega) ps' hps' x hx'

theorem pushLoop_replicate (u : Nat) (ht : 0 < t) (htu : t ≤ u) :
    ∀ m, pushLoop u (m * u + t) = some (List.replicate m u ++ [t]) := by
  intro m
  induction m with
  | zero =>
    match t, ht with
    | t' + 1, _ =>
      show pushLoop u (0 * u + (t' + 1)) = _
      rw [Nat.zero_mul, Nat.zero_add, pushLoop]
      have hu : ¬ (u = 0) := by omega
      simp only [hu, dite_false, if_neg, dif_neg]
      by_cases hlt : t' + 1 < u
      · simp [hlt]
      · have : t' + 1 = u := by omega
        simp [hlt, this, pushLoop]
  | succ m ihm =>
    have hu : 0 < u := by omega
    have : (m + 1) * u + t = ((m + 1) * u + t - 1) + 1 := by
      have : 0 < (m + 1) * u + t := by positivity
      omega
    rw [this, pushLoop]
    have hne : ¬ (u = 0) := by omega
    rw [dif_neg hne]
    have hge : ¬ ((m + 1) * u + t - 1 + 1 < u) := by
      have : u ≤ (m + 1) * u := by nlinarith
      omega
    rw [if_neg hge]
    have harg : (m + 1) * u + t - 1 + 1 - u = m * u + t := by
      have : u ≤ (m + 1) * u := by nlinarith
      have h1 : (m + 1) * u = m * u + u := by ring
      omega
    rw [harg, ihm]
    simp [List.replicate_succ]

theorem forwardPass_sum : ∀ (T : Nat) (P : List Nat),
    (forwardPass T P).1.sum + (forwardPass T P).2 = T := by
  intro T P
  induction P generalizing T with
  | nil => simp [forwardPass]
  | cons p ps ih =>
    rw [forwardPass]
    split
    · simp
    · next hgt =>
      simp only [List.sum_cons]
      have := ih (T - p)
      omega

theorem forwardPass_self : ∀ (F : List Nat), 0 < F.getLastD 0 →
    forwardPass F.sum F = (F, 0) := by
  intro F
  induction F with
  | nil => simp
  | cons p ps ih =>
    intro hpos
    rw [forwardPass]
    cases ps with
    | nil =>
      simp
    | cons q qs =>
      have hlast : 0 < (q :: qs).getLastD 0 := by
        simpa [List.getLastD_cons] using hpos
      have hsum : 0 < (q :: qs).sum := by
        have hmem : (q :: qs).getLast (by simp) ∈ (q :: qs) := List.getLast_mem _
        have : (q :: qs).getLast (by simp) ≤ (q :: qs).sum :=
          List.single_le_sum (by intro x _; omega) _ hmem
        have hg : (q :: qs).getLastD 0 = (q :: qs).getLast (by simp) := by
          rw [List.getLastD_eq_getLast?]
          rw [List.getLast?_eq_getLast _ (by simp)]
          rfl
        omega
      have hnb : ¬ ((p :: q :: qs).sum ≤ p) := by
        simp only [List.sum_cons] at *
        omega
      rw [if_neg hnb]
      have harg : (p :: q :: qs).sum - p = (q :: qs).sum := by
        simp [List.sum_cons]
      rw [harg, ih hlast]



theorem forwardPass_nil_iff : ∀ (T : Nat) (P : List Nat) (r : Nat),
    forwardPass T P = ([], r) → P = [] ∧ r = T := by
  intro T P r h
  cases P with
  | nil =>
    rw [forwardPass] at h
    exact ⟨rfl, ((Prod.mk.injEq _ _ _ _).mp h).2.symm⟩
  | cons p ps =>
    rw [forwardPass] at h
    split at h
    · simp at h
    · simp at h

theorem getLastD_cons_of_ne_nil (p : Nat) (l : List Nat) (h : l ≠ []) :
    (p :: l).getLastD 0 = l.getLastD 0 := by
  cases l with
  | nil => exact absurd rfl h
  | cons q qs => simp [List.getLastD_cons]

theorem forwardPass_last : ∀ (P : List Nat) (T : Nat) (ks : List Nat),
    forwardPass T P = (ks, 0) →
    ks = [] ∨ 0 < ks.getLastD 0 ∨ (T = 0 ∧ ks = [0]) := by
  intro P
  induction P with
  | nil =>
    intro T ks h
    rw [forwardPass] at h
    cases h
    exact Or.inl rfl
  | cons p ps ih =>
    intro T ks h
    rw [forwardPass] at h
    split at h
    · next hle =>
      cases h
      rcases Nat.eq_zero_or_pos T with rfl | hT
      · exact Or.inr (Or.inr ⟨rfl, rfl⟩)
      · exact Or.inr (Or.inl (by simpa using hT))
    · next hgt =>
      push_neg at hgt
      rcases hfp : forwardPass (T - p) ps with ⟨ks2, r2⟩
      rw [hfp] at h
      have hks : ks = p :: ks2 := ((Prod.mk.injEq _ _ _ _).mp h).1.symm
      have hr2 : r2 = 0 := ((Prod.mk.injEq _ _ _ _).mp h).2
      subst hr2
      have hrec := ih (T - p) ks2 hfp
      rcases hrec with rfl | hpos | ⟨hT0, -⟩
      · obtain ⟨-, hr⟩ := forwardPass_nil_iff _ _ _ hfp
        have hc : T - p = 0 := hr.symm
        exact absurd hc (by omega)
      · have hne : ks2 ≠ [] := by
          intro hcon
          rw [hcon] at hpos
          simp at hpos
        rw [hks, getLastD_cons_of_ne_nil _ _ hne]
        exact Or.inr (Or.inl hpos)
      · omega



theorem forwardPass_walk : ∀ (K : List Nat) (u r : Nat), 0 < u → u < r →
    forwardPass (K.sum + r) (K ++ [u]) = (K ++ [u], r - u) := by
  intro K
  induction K with
  | nil =>
    intro u r hu hur
    simp only [List.sum_nil, Nat.zero_add, List.nil_append]
    rw [forwardPass]
    rw [if_neg (by omega)]
    rw [forwardPass]
  | cons p K' ih =>
    intro u r hu hur
    simp only [List.sum_cons, List.cons_append]
    rw [forwardPass]
    rw [if_neg (by omega)]
    have harg : p + K'.sum + r - p = K'.sum + r := by omega
    rw [harg, ih u r hu hur]

theorem pushLoop_eq_nil (last r : Nat) (h : pushLoop last r = some []) : r = 0 := by
  have := pushLoop_sum last r [] h
  simpa using this.symm

theorem iterate_shape (T : Nat) (P F : List Nat)
    (h : iterate_part_sizes T P = some F) :
    F = [] ∨ F = [0] ∨ 0 < F.getLastD 0 := by
  unfold iterate_part_sizes at h
  rcases hfp : forwardPass T P with ⟨ks, r⟩
  rw [hfp] at h
  simp only [Option.map_eq_some'] at h
  obtain ⟨pushed, hpush, rfl⟩ := h
  cases hp : pushed with
  | nil =>
    subst hp
    have hr : r = 0 := pushLoop_eq_nil _ _ hpush
    subst hr
    rcases forwardPass_last P T ks hfp with rfl | hpos | ⟨rfl, rfl⟩
    · exact Or.inl (by simp)
    · exact Or.inr (Or.inr (by simpa using hpos))
    · exact Or.inr (Or.inl (by simp))
  | cons q qs =>
    subst hp
    have hpos : 0 < (q :: qs).getLastD 0 := by
      have hmem : (q :: qs).getLast (by simp) ∈ (q :: qs) := List.getLast_mem _
      have := pushLoop_pos _ _ _ hpush _ hmem
      rw [List.getLastD_eq_getLast?, List.getLast?_eq_getLast _ (by simp)]
      exact this
    refine Or.inr (Or.inr ?_)
    rw [show ks ++ q :: qs = ks ++ (q :: qs) from rfl]
    rw [List.getLastD_eq_getLast?, List.getLast?_append_of_ne_nil _ (by simp)]
    rw [← List.getLastD_eq_getLast?]
    exact hpos

theorem retainFromBack_true (u : Nat) : ∀ (l : List Nat),
    retainFromBack u l true = l := by
  intro l
  induction l with
  | nil => rfl
  | cons p ps ih => simp [retainFromBack, ih]

theorem retainFromBack_false (u : Nat) : ∀ (l : List Nat),
    retainFromBack u l false = l.dropWhile (fun p => p == u) := by
  intro l
  induction l with
  | nil => rfl
  | cons p ps ih =>
    by_cases hpu : p = u
    · subst hpu
      simp [retainFromBack, List.dropWhile_cons, ih]
    · simp [retainFromBack, List.dropWhile_cons, hpu, retainFromBack_true]



theorem pushLoop_zero (last : Nat) : pushLoop last 0 = some [] := by
  rw [pushLoop]

theorem iterate_self_of_last_pos (F : List Nat) (h : 0 < F.getLastD 0) :
    iterate_part_sizes F.sum F = some F := by
  unfold iterate_part_sizes
  rw [forwardPass_self F h]
  simp [pushLoop_zero]

theorem iterate_nil : iterate_part_sizes 0 [] = some [] := by
  unfold iterate_part_sizes
  rw [forwardPass]
  simp [pushLoop_zero]

theorem iterate_singleton (x : Nat) : iterate_part_sizes x [x] = some [x] := by
  unfold iterate_part_sizes
  rw [forwardPass]
  rw [if_pos (Nat.le_refl x)]
  simp [pushLoop_zero]

theorem trailing_run_decomp (D : List Nat) (u : Nat) (hD : D ≠ [])
    (hu : D.getLastD 0 = u) :
    ∃ K m, 1 ≤ m ∧ D = K ++ List.replicate m u ∧
      (D.reverse.dropWhile (fun p => p == u)).reverse = K := by
  refine ⟨(D.reverse.dropWhile (fun p => p == u)).reverse,
    (D.reverse.takeWhile (fun p => p == u)).length, ?_, ?_, rfl⟩
  · rcases hrev : D.reverse with _ | ⟨q, qs⟩
    · exact absurd (by simpa using congrArg List.reverse hrev) hD
    · have hq : q = u := by
        have h1 : D.reverse.head? = some q := by rw [hrev]; rfl
        rw [List.head?_reverse] at h1
        rw [List.getLastD_eq_getLast?, h1] at hu
        simpa using hu
      rw [List.takeWhile_cons]
      simp [hq]
  · have hrepl : D.reverse.takeWhile (fun p => p == u) =
        List.replicate (D.reverse.takeWhile (fun p => p == u)).length u := by
      rw [List.eq_replicate_iff]
      refine ⟨rfl, ?_⟩
      intro b hb
      have := List.mem_takeWhile_imp hb
      simpa using this
    have h0 : D = (List.takeWhile (fun p => p == u) D.reverse ++
        List.dropWhile (fun p => p == u) D.reverse).reverse := by
      rw [List.takeWhile_append_dropWhile, List.reverse_reverse]
    conv_lhs => rw [h0]
    rw [List.reverse_append]
    congr 1
    conv_lhs => rw [hrepl]
    rw [List.reverse_replicate]



theorem remove_duplicates_nil : remove_duplicates [] = [] := rfl

theorem remove_duplicates_singleton (x : Nat) : remove_duplicates [x] = [x] := rfl

theorem remove_duplicates_concat (D : List Nat) (t : Nat) (hD : D ≠ []) :
    remove_duplicates (D ++ [t]) =
      if D.getLastD 0 < t then D ++ [t]
      else (D.reverse.dropWhile (fun p => p == D.getLastD 0)).reverse ++
        [D.getLastD 0] := by
  unfold remove_duplicates
  rw [List.getLast?_concat, List.dropLast_concat]
  rw [List.getLastD_eq_getLast?]
  rw [List.getLast?_eq_getLast _ hD]
  simp only [Option.getD_some]
  split
  · rfl
  · rw [retainFromBack_false]

theorem sum_concat_decomp (K : List Nat) (m u t : Nat) :
    (K ++ List.replicate m u ++ [t]).sum = K.sum + (m * u + t) := by
  simp [List.sum_append, List.sum_replicate, Nat.mul_comm]

theorem iterate_part_sizes_sum (T : Nat) (P F : List Nat)
    (h : iterate_part_sizes T P = some F) : F.sum = T := by
  unfold iterate_part_sizes at h
  rcases hfp : forwardPass T P with ⟨ks, r⟩
  rw [hfp] at h
  simp only [Option.map_eq_some'] at h
  obtain ⟨pushed, hp, rfl⟩ := h
  have h1 := forwardPass_sum T P
  rw [hfp] at h1
  have h2 := pushLoop_sum _ _ _ hp
  simp only [List.sum_append]
  simp at h1
  omega

theorem iterate_part_sizes_fixed (T : Nat) (P F : List Nat)
    (h : iterate_part_sizes T P = some F) :
    F.sum = T ∧ iterate_part_sizes T (remove_duplicates F) = some F := by
  have hsum : F.sum = T := iterate_part_sizes_sum T P F h
  refine ⟨hsum, ?_⟩
  subst hsum
  rcases iterate_shape _ _ _ h with rfl | rfl | hpos
  · rw [remove_duplicates_nil]
    exact iterate_nil
  · rw [remove_duplicates_singleton]
    exact iterate_singleton 0
  · have hne : F ≠ [] := by
      intro hcon
      rw [hcon] at hpos
      simp at hpos
    obtain ⟨t, hts⟩ : ∃ t, F.getLast hne = t := ⟨_, rfl⟩
    have hF : F.dropLast ++ [t] = F := by
      rw [← hts]
      exact List.dropLast_append_getLast hne
    have ht : F.getLastD 0 = t := by
      rw [List.getLastD_eq_getLast?, List.getLast?_eq_getLast _ hne, hts]
      rfl
    have htpos : 0 < t := by rw [ht] at hpos; exact hpos
    cases hD : F.dropLast with
    | nil =>
      have hFt : F = [t] := by
        rw [← hF, hD]
        rfl
      rw [hFt, remove_duplicates_singleton]
      have hst : ([t] : List Nat).sum = t := by simp
      rw [hst]
      exact iterate_singleton t
    | cons d ds =>
      have hDne : F.dropLast ≠ [] := by rw [hD]; simp
      have hrd := remove_duplicates_concat F.dropLast t hDne
      rw [hF] at hrd
      rw [hrd]
      by_cases hlt : F.dropLast.getLastD 0 < t
      · rw [if_pos hlt]
        exact iterate_self_of_last_pos F hpos
      · rw [if_neg hlt]
        have htle : t ≤ F.dropLast.getLastD 0 := Nat.le_of_not_lt hlt
        obtain ⟨u, hus⟩ : ∃ u, F.dropLast.getLastD 0 = u := ⟨_, rfl⟩
        rw [hus] at htle ⊢
        have hupos : 0 < u := lt_of_lt_of_le htpos htle
        obtain ⟨K, m, hm, hDdecomp, hKdrop⟩ := trailing_run_decomp F.dropLast u hDne hus
        rw [hKdrop]
        have hFdecomp : F = K ++ List.replicate m u ++ [t] := by
          rw [← hF, hDdecomp]
        have hsum2 : F.sum = K.sum + (m * u + t) := by
          rw [hFdecomp]
          exact sum_concat_decomp K m u t
        rw [hsum2]
        unfold iterate_part_sizes
        have hwalk := forwardPass_walk K u (m * u + t) hupos
          (by nlinarith)
        rw [hwalk]
        have hlastKu : (K ++ [u]).getLastD 0 = u := by
          rw [List.getLastD_eq_getLast?, List.getLast?_concat]
          rfl
        dsimp only
        rw [hlastKu]
        have harg : m * u + t - u = (m - 1) * u + t := by
          cases m with
          | zero => omega
          | succ m' =>
            simp [Nat.succ_mul, Nat.succ_sub_one]
            omega
        rw [harg, pushLoop_replicate u htpos htle (m - 1)]
        simp only [Option.map_some']
        congr 1
        rw [hFdecomp]
        have hrepl : List.replicate m u = u :: List.replicate (m - 1) u := by
          cases m with
          | zero => omega
          | succ m' => simp [List.replicate_succ]
        rw [hrepl]
        simp


/-! ## Claims C2 and C5: schedule normalization -/

/-- C2, counterexample: the claim "the normalized schedule produced by
`update_part_sizes` is a list of part sizes whose sum equals T" fails on the
declared schedule `[1, 1]` over total size `T = 2`: the duplicate-suffix trim
collapses the repeated trailing part, producing `[1]`, whose sum is `1 ≠ 2`. -/
theorem claim_C2_counterexample :
    update_part_sizes 2 [1, 1] = some [1] ∧ ([1] : List Nat).sum ≠ 2 := by
  constructor
  · have hfp : forwardPass 2 [1, 1] = ([1, 1], 0) := by
      norm_num [forwardPass]
    rw [update_part_sizes, iterate_part_sizes, hfp]
    dsimp only
    rw [pushLoop_zero]
    simp [remove_duplicates, retainFromBack]
  · decide

/-- C2, amended: whenever the forward pass (`iterate_part_sizes`) terminates
with result `F`, (a) `F` sums exactly to the total size `T`; (b) the full
normalization `update_part_sizes` returns the duplicate-suffix trim of `F`;
and (c) re-running the forward pass over `T` on that trimmed schedule
reproduces `F` — the trim only collapses the repeated suffix, so the
normalized schedule still tiles exactly `T` bytes once its last part size is
repeated, though its own element sum can be smaller than `T`. -/
theorem claim_C2_amended (T : Nat) (P F : List Nat)
    (h : iterate_part_sizes T P = some F) :
    F.sum = T ∧ update_part_sizes T P = some (remove_duplicates F) ∧
      iterate_part_sizes T (remove_duplicates F) = some F := by
  obtain ⟨hsum, hfix⟩ := iterate_part_sizes_fixed T P F h
  refine ⟨hsum, ?_, hfix⟩
  rw [update_part_sizes, h]
  rfl

/-- Witness for `claim_C2_amended` at the concrete schedule `[1, 1]` over
total size `2` (forward pass gives `[1, 1]`, trimmed to `[1]`). -/
theorem claim_C2_amended_witness :
    ([1, 1] : List Nat).sum = 2 ∧
      update_part_sizes 2 [1, 1] = some (remove_duplicates [1, 1]) ∧
      iterate_part_sizes 2 (remove_duplicates [1, 1]) = some [1, 1] := by
  have hIter : iterate_part_sizes 2 [1, 1] = some [1, 1] := by
    have hfp : forwardPass 2 [1, 1] = ([1, 1], 0) := by
      norm_num [forwardPass]
    rw [iterate_part_sizes, hfp]
    dsimp only
    rw [pushLoop_zero]
    rfl
  exact claim_C2_amended 2 [1, 1] [1, 1] hIter

/-- C5: normalizing the declared schedule
`[214748365, 214748365, 429496730, 214748365, 600000000]` over total size
`T = 1288590200` yields exactly
`[214748365, 214748365, 429496730, 214748365, 214848375]` (the forward pass
replaces the over-long final declared part by the remaining byte count, and
the trim leaves the list unchanged because the tail is larger than the part
before it). -/
theorem claim_C5 :
    update_part_sizes 1288590200
      [214748365, 214748365, 429496730, 214748365, 600000000] =
      some [214748365, 214748365, 429496730, 214748365, 214848375] := by
  have hfp : forwardPass 1288590200
      [214748365, 214748365, 429496730, 214748365, 600000000] =
      ([214748365, 214748365, 429496730, 214748365, 214848375], 0) := by
    norm_num [forwardPass]
  rw [update_part_sizes, iterate_part_sizes, hfp]
  dsimp only
  rw [pushLoop_zero]
  simp [remove_duplicates]

/-! ## Supporting lemmas and claims: the manifest model (C3, C6, C10) -/


theorem btreeGet_insert (k k' : String) (v : Checksum) :
    ∀ l, btreeGet k' (btreeInsert k v l) =
      if k' = k then some v else btreeGet k' l := by
  intro l
  induction l with
  | nil =>
    by_cases h : k' = k <;> simp [btreeInsert, btreeGet, h]
  | cons kv t ih =>
    obtain ⟨k0, v0⟩ := kv
    rw [btreeInsert]
    rcases hc : cmpString k k0 with _ | _ | _
    · have hne : k ≠ k0 := fun he => by
        rw [(cmpString_eq_iff k k0).mpr he] at hc
        cases hc
      by_cases h : k' = k
      · subst h
        simp [btreeGet, hne]
      · simp [btreeGet, h]
    · have he : k = k0 := (cmpString_eq_iff k k0).mp hc
      subst he
      by_cases h : k' = k <;> simp [btreeGet, h]
    · have hne : k ≠ k0 := fun he => by
        rw [(cmpString_eq_iff k k0).mpr he] at hc
        cases hc
      by_cases h : k' = k
      · subst h
        have h4 : k' ≠ k0 := hne
        simp [btreeGet, h4, ih]
      · have h4 : ¬ (k0 = k) := fun he => hne he.symm
        by_cases h3 : k' = k0 <;> simp [btreeGet, h3, ih, h, h4]

theorem btreeGet_eq_none_of_not_mem (k : String) :
    ∀ (l : List (String × Checksum)), k ∉ l.map Prod.fst → btreeGet k l = none := by
  intro l
  induction l with
  | nil => intro; rfl
  | cons kv t ih =>
    intro h
    simp only [List.map_cons, List.mem_cons] at h
    push_neg at h
    rw [btreeGet, if_neg h.1]
    exact ih h.2

theorem btreeGet_foldl_insert :
    ∀ (l acc : List (String × Checksum)), (l.map Prod.fst).Nodup → ∀ k,
      btreeGet k (l.foldl (fun acc kv => btreeInsert kv.1 kv.2 acc) acc) =
        (btreeGet k l).or (btreeGet k acc) := by
  intro l
  induction l with
  | nil => intro acc _ k; simp [btreeGet]
  | cons kv t ih =>
    intro acc hnd k
    obtain ⟨k0, v0⟩ := kv
    simp only [List.map_cons, List.nodup_cons] at hnd
    obtain ⟨hk0, hnd'⟩ := hnd
    rw [List.foldl_cons]
    rw [ih (btreeInsert k0 v0 acc) hnd' k]
    by_cases h : k = k0
    · subst h
      have ht : btreeGet k t = none :=
        btreeGet_eq_none_of_not_mem k t hk0
      rw [ht, btreeGet_insert]
      simp [btreeGet]
    · rw [btreeGet_insert]
      rw [if_neg h]
      simp [btreeGet, h]



theorem is_same_iff (a b : SumsFile) :
    a.is_same b = true ↔
      (a.size = b.size ∧ ∃ kv ∈ a.checksums, ∃ cb,
        btreeGet kv.1 b.checksums = some cb ∧ kv.2.checksum = cb.checksum) := by
  unfold SumsFile.is_same
  by_cases hs : a.size = b.size
  · rw [if_neg (by simpa using hs)]
    rw [List.any_eq_true]
    constructor
    · rintro ⟨kv, hmem, hpred⟩
      refine ⟨hs, kv, hmem, ?_⟩
      rcases hget : btreeGet kv.1 b.checksums with _ | cb
      · rw [hget] at hpred
        simp at hpred
      · rw [hget] at hpred
        simp at hpred
        exact ⟨cb, rfl, hpred⟩
    · rintro ⟨-, kv, hmem, cb, hget, heq⟩
      refine ⟨kv, hmem, ?_⟩
      rw [hget]
      simpa using heq
  · rw [if_pos (by simpa using hs)]
    constructor
    · intro hcon
      exact absurd hcon (by simp)
    · rintro ⟨hcon, -⟩
      exact absurd hcon hs

theorem btreeGet_strip (k : String) :
    ∀ (l : List (String × Checksum)),
      btreeGet k (l.map fun kv => (kv.1, { kv.2 with part_checksums := none })) =
        (btreeGet k l).map fun c => { c with part_checksums := none } := by
  intro l
  induction l with
  | nil => rfl
  | cons kv t ih =>
    obtain ⟨k0, v0⟩ := kv
    by_cases h : k = k0 <;> simp [btreeGet, h, ih]

theorem stripParts_is_same (a b : SumsFile) :
    a.stripParts.is_same b.stripParts = a.is_same b := by
  unfold SumsFile.is_same SumsFile.stripParts
  dsimp only
  by_cases hs : a.size ≠ b.size
  · rw [if_pos hs, if_pos hs]
  · rw [if_neg hs, if_neg hs]
    rw [List.any_map]
    congr 1
    funext kv
    rw [Function.comp_apply]
    show (match btreeGet kv.1 (b.checksums.map fun kv =>
        (kv.1, { kv.2 with part_checksums := none })) with
      | some otherChecksum => kv.2.checksum == otherChecksum.checksum
      | none => false) = _
    rw [btreeGet_strip]
    rcases btreeGet kv.1 b.checksums with _ | cb <;> rfl



/-- C3, counterexample. -/
theorem claim_C3_counterexample :
    SumsFile.merge ⟨"1", none, []⟩ ⟨"1", some 5, []⟩ =
      Except.ok ⟨"1", none, []⟩ ∧
    (Option.or (none : Option Nat) (some 5) = some 5) ∧
    ((none : Option Nat) ≠ some 5) := by
  refine ⟨?_, rfl, by simp⟩
  rw [SumsFile.merge]
  rw [if_neg (by simp)]
  rfl

/-- C3, amended. -/
theorem claim_C3_amended (a b : SumsFile)
    (hb : (b.checksums.map Prod.fst).Nodup) :
    ((∃ e, SumsFile.merge a b = .error e) ↔
      (a.size ≠ b.size ∧ a.checksums ≠ [] ∧ b.checksums ≠ [])) ∧
    ∀ m, SumsFile.merge a b = .ok m →
      m.size = a.size ∧ m.version = a.version ∧
      ∀ k, btreeGet k m.checksums =
        (btreeGet k b.checksums).or (btreeGet k a.checksums) := by
  constructor
  · rw [SumsFile.merge]
    by_cases hc : a.size ≠ b.size ∧ a.checksums ≠ [] ∧ b.checksums ≠ []
    · rw [if_pos hc]
      simp [hc]
    · rw [if_neg hc]
      simp [hc]
  · intro m hm
    rw [SumsFile.merge] at hm
    split at hm
    · exact absurd hm (by simp)
    · have hmm : m = a.merge_mut b := by
        injection hm with h
        exact h.symm
      subst hmm
      refine ⟨rfl, rfl, ?_⟩
      intro k
      exact btreeGet_foldl_insert b.checksums a.checksums hb k

/-- Witness for claim_C3_amended. -/
theorem claim_C3_amended_witness :
    ((∃ e, SumsFile.merge ⟨"1", some 1, [("md5", ⟨"x", none⟩)]⟩
        ⟨"1", some 2, [("sha1", ⟨"y", none⟩)]⟩ = .error e) ↔
      ((some 1 : Option Nat) ≠ some 2 ∧
        ([("md5", (⟨"x", none⟩ : Checksum))] ≠ []) ∧
        ([("sha1", (⟨"y", none⟩ : Checksum))] ≠ []))) ∧
    ∀ m, SumsFile.merge ⟨"1", some 1, [("md5", ⟨"x", none⟩)]⟩
        ⟨"1", some 2, [("sha1", ⟨"y", none⟩)]⟩ = .ok m →
      m.size = some 1 ∧ m.version = "1" ∧
      ∀ k, btreeGet k m.checksums =
        (btreeGet k [("sha1", ⟨"y", none⟩)]).or
          (btreeGet k [("md5", ⟨"x", none⟩)]) :=
  claim_C3_amended ⟨"1", some 1, [("md5", ⟨"x", none⟩)]⟩
    ⟨"1", some 2, [("sha1", ⟨"y", none⟩)]⟩ (by simp)

/-- C10. -/
theorem claim_C10 (a b : SumsFile) :
    (a.merge_mut b).version = a.version ∧ (a.merge_mut b).size = a.size ∧
    ∀ m, SumsFile.merge a b = .ok m →
      m.version = a.version ∧ m.size = a.size :=
  ⟨rfl, rfl, by
    intro m hm
    rw [SumsFile.merge] at hm
    split at hm
    · exact absurd hm (by simp)
    · have hmm : m = a.merge_mut b := by
        injection hm with h
        exact h.symm
      subst hmm
      exact ⟨rfl, rfl⟩⟩

/-- Witness for claim_C10 at a concrete pair where `a.size` is absent and
`b.size` is present. -/
theorem claim_C10_witness :
    ((⟨"1", none, []⟩ : SumsFile).merge_mut ⟨"1", some 5, []⟩).version = "1" ∧
    ((⟨"1", none, []⟩ : SumsFile).merge_mut ⟨"1", some 5, []⟩).size = none ∧
    ∀ m, SumsFile.merge ⟨"1", none, []⟩ ⟨"1", some 5, []⟩ = .ok m →
      m.version = "1" ∧ m.size = none :=
  claim_C10 ⟨"1", none, []⟩ ⟨"1", some 5, []⟩

/-- C6. -/
theorem claim_C6 :
    (∀ a b : SumsFile,
      a.is_same b = true ↔
        (a.size = b.size ∧ ∃ kv ∈ a.checksums, ∃ cb,
          btreeGet kv.1 b.checksums = some cb ∧ kv.2.checksum = cb.checksum)) ∧
    (∀ a b : SumsFile, a.stripParts.is_same b.stripParts = a.is_same b) :=
  ⟨is_same_iff, stripParts_is_same⟩

/-! ## Supporting lemmas and claim: the merge loop terminates (C8) -/

theorem sortFiles_perm (files : List SumsFile) :
    List.Perm (sortFiles files) files :=
  List.perm_insertionSort sumsLe files

theorem sortFiles_sorted (files : List SumsFile) :
    (sortFiles files).Sorted sumsLe :=
  List.sorted_insertionSort sumsLe files

theorem sortFiles_length (files : List SumsFile) :
    (sortFiles files).length = files.length :=
  (sortFiles_perm files).length_eq

theorem sortFiles_of_sorted (files : List SumsFile)
    (h : files.Sorted sumsLe) : sortFiles files = files :=
  List.eq_of_perm_of_sorted (sortFiles_perm files) (sortFiles_sorted files) h

theorem sortFiles_eq_of_perm_of_sorted (l l' : List SumsFile)
    (hperm : List.Perm l l') (hsorted : l'.Sorted sumsLe) :
    sortFiles l = l' :=
  List.eq_of_perm_of_sorted ((sortFiles_perm l).trans hperm)
    (sortFiles_sorted l) hsorted

theorem mergeIntoFirst_length (cmpf : SumsFile → SumsFile → Bool)
    (a : SumsFile) :
    ∀ (l l' : List SumsFile), mergeIntoFirst cmpf a l = some l' →
      l'.length = l.length := by
  intro l
  induction l with
  | nil => intro l' h; cases h
  | cons b t ih =>
    intro l' h
    rw [mergeIntoFirst] at h
    split at h
    · cases h
      rfl
    · simp only [Option.map_eq_some'] at h
      obtain ⟨t', ht', rfl⟩ := h
      simp [ih t' ht']

theorem mergeStepGo_cases (cmpf : SumsFile → SumsFile → Bool) :
    ∀ (fuel : Nat) (files : List SumsFile), files.length ≤ fuel →
      ∀ reprocess,
        (mergeStepGo cmpf fuel files reprocess).length <
            files.length + reprocess.length ∨
          mergeStepGo cmpf fuel files reprocess = reprocess ++ files.reverse := by
  intro fuel
  induction fuel with
  | zero =>
    intro files hlen reprocess
    have : files = [] := List.eq_nil_of_length_eq_zero (by omega)
    subst this
    rw [mergeStepGo]
    simp
  | succ n ih =>
    intro files hlen reprocess
    rw [mergeStepGo]
    by_cases hne : files = []
    · subst hne
      simp
    · rw [dif_neg hne]
      have hdl : files.dropLast.length = files.length - 1 :=
        List.length_dropLast files
      have hflen : 0 < files.length := List.length_pos.mpr hne
      have hlt : files.dropLast.length ≤ n := by omega
      cases hmi : mergeIntoFirst cmpf (files.getLast hne) files.dropLast with
      | some rest' =>
        dsimp only
        left
        have h1 : rest'.length = files.dropLast.length :=
          mergeIntoFirst_length cmpf _ _ _ hmi
        rcases ih rest' (by omega) reprocess with hl | he
        · omega
        · rw [he]
          simp only [List.length_append, List.length_reverse]
          omega
      | none =>
        dsimp only
        rcases ih files.dropLast hlt (reprocess ++ [files.getLast hne]) with hl | he
        · left
          simp only [List.length_append, List.length_singleton] at hl ⊢
          omega
        · right
          rw [he]
          have : files.reverse = files.getLast hne :: files.dropLast.reverse := by
            conv_lhs => rw [← List.dropLast_append_getLast hne]
            rw [List.reverse_append]
            rfl
          rw [this]
          simp

theorem mergeStep_cases (cmpf : SumsFile → SumsFile → Bool)
    (files reprocess : List SumsFile) :
    (mergeStep cmpf files reprocess).length <
        files.length + reprocess.length ∨
      mergeStep cmpf files reprocess = reprocess ++ files.reverse :=
  mergeStepGo_cases cmpf files.length files (Nat.le_refl _) reprocess

theorem mergeOnce_cases (cmpf : SumsFile → SumsFile → Bool)
    (files : List SumsFile) (hs : files.Sorted sumsLe) :
    (mergeOnce cmpf files).length < files.length ∨
      mergeOnce cmpf files = files := by
  rcases mergeStep_cases cmpf files [] with hl | he
  · left
    rw [mergeOnce, sortFiles_length]
    simpa using hl
  · right
    rw [mergeOnce, he]
    simp only [List.nil_append]
    exact sortFiles_eq_of_perm_of_sorted _ _ (List.reverse_perm files) hs

theorem mergeLoop_isSome (cmpf : SumsFile → SumsFile → Bool)
    (hash : List SumsFile → Nat) :
    ∀ (fuel : Nat) (files : List SumsFile), files.Sorted sumsLe →
      files.length < fuel → (mergeLoop cmpf hash fuel files).isSome = true := by
  intro fuel
  induction fuel with
  | zero =>
    intro files _ hlen
    omega
  | succ n ih =>
    intro files hsorted hlen
    rw [mergeLoop]
    by_cases hh : hash (mergeOnce cmpf files) = hash files
    · simp [hh]
    · simp only [hh, if_false]
      rcases mergeOnce_cases cmpf files hsorted with hl | he
      · exact ih (mergeOnce cmpf files) (sortFiles_sorted _) (by omega)
      · rw [he] at hh
        exact absurd rfl hh

/-- C8: for every finite list of manifests, every grouping relation and
every hash function, the fixed-point loop of `CheckTask::merge_fn`
terminates within `length + 1` iterations: each iteration either merges at
least one pair (strictly shrinking the list) or reproduces the list
unchanged, so its hash is stable and the loop exits. -/
theorem claim_C8 (cmpf : SumsFile → SumsFile → Bool)
    (hash : List SumsFile → Nat) (files : List SumsFile) :
    (merge_fn cmpf hash (files.length + 1) files).isSome = true := by
  rw [merge_fn]
  exact mergeLoop_isSome cmpf hash (files.length + 1) (sortFiles files)
    (sortFiles_sorted files) (by rw [sortFiles_length]; omega)

/-! ## Supporting lemmas and claim: transitive grouping (C9) -/


theorem mem_of_btreeGet (k : String) (v : Checksum) :
    ∀ (l : List (String × Checksum)), btreeGet k l = some v → (k, v) ∈ l := by
  intro l
  induction l with
  | nil => intro h; cases h
  | cons kv t ih =>
    intro h
    obtain ⟨k0, v0⟩ := kv
    rw [btreeGet] at h
    split at h
    · cases h
      simp_all
    · simp [ih h]

theorem btreeGet_of_mem (k : String) (v : Checksum) :
    ∀ (l : List (String × Checksum)), (l.map Prod.fst).Nodup →
      (k, v) ∈ l → btreeGet k l = some v := by
  intro l
  induction l with
  | nil => intro _ h; cases h
  | cons kv t ih =>
    intro hnd hmem
    obtain ⟨k0, v0⟩ := kv
    simp only [List.map_cons, List.nodup_cons] at hnd
    rcases List.mem_cons.mp hmem with he | hmem'
    · cases he
      rw [btreeGet, if_pos rfl]
    · have hne : k ≠ k0 := by
        intro hc
        subst hc
        exact hnd.1 (List.mem_map.mpr ⟨(k, v), hmem', rfl⟩)
      rw [btreeGet, if_neg hne]
      exact ih hnd.2 hmem'

theorem is_same_iff_get (a b : SumsFile)
    (ha : (a.checksums.map Prod.fst).Nodup) :
    a.is_same b = true ↔
      (a.size = b.size ∧ ∃ k ca cb,
        btreeGet k a.checksums = some ca ∧ btreeGet k b.checksums = some cb ∧
        ca.checksum = cb.checksum) := by
  rw [is_same_iff]
  constructor
  · rintro ⟨hs, kv, hmem, cb, hget, heq⟩
    exact ⟨hs, kv.1, kv.2, cb, btreeGet_of_mem _ _ _ ha hmem, hget, heq⟩
  · rintro ⟨hs, k, ca, cb, hga, hgb, heq⟩
    exact ⟨hs, (k, ca), mem_of_btreeGet _ _ _ hga, cb, hgb, heq⟩

theorem is_same_symm (a b : SumsFile)
    (ha : (a.checksums.map Prod.fst).Nodup)
    (hb : (b.checksums.map Prod.fst).Nodup) :
    a.is_same b = b.is_same a := by
  by_cases h : a.is_same b = true
  · rw [h]
    obtain ⟨hs, k, ca, cb, hga, hgb, heq⟩ := (is_same_iff_get a b ha).mp h
    exact ((is_same_iff_get b a hb).mpr ⟨hs.symm, k, cb, ca, hgb, hga, heq.symm⟩).symm
  · rcases hba : b.is_same a with _ | _
    · simpa using h
    · obtain ⟨hs, k, cb, ca, hgb, hga, heq⟩ := (is_same_iff_get b a hb).mp hba
      exact absurd ((is_same_iff_get a b ha).mpr
        ⟨hs.symm, k, ca, cb, hga, hgb, heq.symm⟩) h

theorem merge_mut_get (z1 z2 : SumsFile)
    (hn2 : (z2.checksums.map Prod.fst).Nodup) (k : String) :
    btreeGet k (z1.merge_mut z2).checksums =
      (btreeGet k z2.checksums).or (btreeGet k z1.checksums) :=
  btreeGet_foldl_insert z2.checksums z1.checksums hn2 k

theorem mem_btreeInsert (k : String) (v : Checksum) (x : String × Checksum) :
    ∀ (l : List (String × Checksum)),
      x ∈ btreeInsert k v l → x = (k, v) ∨ x ∈ l := by
  intro l
  induction l with
  | nil => simp [btreeInsert]
  | cons kv t ih =>
    obtain ⟨k0, v0⟩ := kv
    rw [btreeInsert]
    rcases hc : cmpString k k0 with _ | _ | _
    · intro hm
      rcases List.mem_cons.mp hm with rfl | hm'
      · exact Or.inl rfl
      · exact Or.inr hm'
    · intro hm
      rcases List.mem_cons.mp hm with rfl | hm'
      · exact Or.inl rfl
      · exact Or.inr (List.mem_cons_of_mem _ hm')
    · intro hm
      rcases List.mem_cons.mp hm with rfl | hm'
      · exact Or.inr (List.mem_cons_self _ _)
      · rcases ih hm' with h | h
        · exact Or.inl h
        · exact Or.inr (List.mem_cons_of_mem _ h)

theorem btreeInsert_keysSorted (k : String) (v : Checksum) :
    ∀ (l : List (String × Checksum)),
      l.Pairwise (fun p q => cmpString p.1 q.1 = .lt) →
      (btreeInsert k v l).Pairwise (fun p q => cmpString p.1 q.1 = .lt) := by
  intro l
  induction l with
  | nil => intro; simp [btreeInsert]
  | cons kv t ih =>
    intro hs
    obtain ⟨k0, v0⟩ := kv
    rw [List.pairwise_cons] at hs
    obtain ⟨hhead, htail⟩ := hs
    rw [btreeInsert]
    rcases hc : cmpString k k0 with _ | _ | _
    · rw [List.pairwise_cons]
      refine ⟨?_, List.pairwise_cons.mpr ⟨hhead, htail⟩⟩
      intro q hq
      rcases List.mem_cons.mp hq with rfl | hm'
      · exact hc
      · exact Batteries.TransCmp.lt_trans hc (hhead q hm')
    · have he : k = k0 := (cmpString_eq_iff k k0).mp hc
      subst he
      rw [List.pairwise_cons]
      exact ⟨hhead, htail⟩
    · rw [List.pairwise_cons]
      constructor
      · intro q hq
        rcases mem_btreeInsert k v q t hq with rfl | hm'
        · exact Batteries.OrientedCmp.cmp_eq_gt.mp hc
        · exact hhead q hm'
      · exact ih htail

theorem merge_mut_keysSorted (z1 z2 : SumsFile)
    (h1 : z1.checksums.Pairwise (fun p q => cmpString p.1 q.1 = .lt)) :
    (z1.merge_mut z2).checksums.Pairwise
      (fun p q => cmpString p.1 q.1 = .lt) := by
  show (z2.checksums.foldl (fun acc kv => btreeInsert kv.1 kv.2 acc)
      z1.checksums).Pairwise _
  generalize z1.checksums = acc at h1 ⊢
  induction z2.checksums generalizing acc with
  | nil => exact h1
  | cons kv t ih =>
    rw [List.foldl_cons]
    exact ih _ (btreeInsert_keysSorted kv.1 kv.2 acc h1)

theorem keysSorted_nodup (l : List (String × Checksum))
    (h : l.Pairwise (fun p q => cmpString p.1 q.1 = .lt)) :
    (l.map Prod.fst).Nodup := by
  rw [List.Nodup, List.pairwise_map]
  refine h.imp ?_
  intro p q hlt he
  rw [(cmpString_eq_iff p.1 q.1).mpr he] at hlt
  cases hlt



theorem is_same_merge_host (y z1 z2 : SumsFile)
    (hn2 : (z2.checksums.map Prod.fst).Nodup)
    (hcons : consistentWith z1 z2)
    (h : y.is_same z1 = true) :
    y.is_same (z1.merge_mut z2) = true := by
  obtain ⟨hs, kv, hmem, cb, hget, heq⟩ := (is_same_iff y z1).mp h
  refine (is_same_iff y _).mpr ⟨hs, kv, hmem, ?_⟩
  rw [merge_mut_get z1 z2 hn2]
  rcases hg2 : btreeGet kv.1 z2.checksums with _ | c2
  · exact ⟨cb, by simp [hg2, hget], heq⟩
  · refine ⟨c2, by simp [hg2], ?_⟩
    rw [heq]
    exact hcons kv.1 cb c2 hget hg2



theorem is_same_merge_absorbed (y z1 z2 : SumsFile)
    (hn2 : (z2.checksums.map Prod.fst).Nodup)
    (hsz : z1.size = z2.size)
    (h : y.is_same z2 = true) :
    y.is_same (z1.merge_mut z2) = true := by
  obtain ⟨hs, kv, hmem, cb, hget, heq⟩ := (is_same_iff y z2).mp h
  refine (is_same_iff y _).mpr ⟨by rw [hs, ← hsz]; rfl, kv, hmem, cb, ?_, heq⟩
  rw [merge_mut_get z1 z2 hn2, hget]
  rfl

theorem mergeStepGo_two (cmpf : SumsFile → SumsFile → Bool)
    (p q : SumsFile) (hpq : cmpf q p = true) :
    mergeStepGo cmpf 2 [p, q] [] = [p.merge_mut q] := by
  show mergeStepGo cmpf (1 + 1) [p, q] [] = _
  rw [mergeStepGo]
  rw [dif_neg (by simp)]
  have hlast : ([p, q].getLast (by simp)) = q := by rfl
  have hdrop : ([p, q]).dropLast = [p] := by rfl
  rw [hlast, hdrop]
  rw [mergeIntoFirst, if_pos hpq]
  show mergeStepGo cmpf (0 + 1) [p.merge_mut q] [] = _
  rw [mergeStepGo]
  rw [dif_neg (by simp)]
  have hlast2 : ([p.merge_mut q].getLast (by simp)) = p.merge_mut q := by rfl
  have hdrop2 : ([p.merge_mut q]).dropLast = [] := by rfl
  rw [hlast2, hdrop2]
  rw [mergeIntoFirst]
  show mergeStepGo cmpf 0 [] ([] ++ [p.merge_mut q]) = _
  rw [mergeStepGo]
  rfl

theorem mergeStep_three_first (cmpf : SumsFile → SumsFile → Bool)
    (x1 x2 x3 : SumsFile) (h31 : cmpf x3 x1 = true) :
    mergeStep cmpf [x1, x2, x3] [] = mergeStepGo cmpf 2 [x1.merge_mut x3, x2] [] := by
  show mergeStepGo cmpf (2 + 1) [x1, x2, x3] [] = _
  rw [mergeStepGo]
  rw [dif_neg (by simp)]
  have hlast : ([x1, x2, x3].getLast (by simp)) = x3 := by rfl
  have hdrop : ([x1, x2, x3]).dropLast = [x1, x2] := by rfl
  rw [hlast, hdrop]
  rw [mergeIntoFirst, if_pos h31]

theorem mergeStep_three_second (cmpf : SumsFile → SumsFile → Bool)
    (x1 x2 x3 : SumsFile) (h31 : cmpf x3 x1 = false) (h32 : cmpf x3 x2 = true) :
    mergeStep cmpf [x1, x2, x3] [] = mergeStepGo cmpf 2 [x1, x2.merge_mut x3] [] := by
  show mergeStepGo cmpf (2 + 1) [x1, x2, x3] [] = _
  rw [mergeStepGo]
  rw [dif_neg (by simp)]
  have hlast : ([x1, x2, x3].getLast (by simp)) = x3 := by rfl
  have hdrop : ([x1, x2, x3]).dropLast = [x1, x2] := by rfl
  rw [hlast, hdrop]
  rw [mergeIntoFirst, if_neg (by simp [h31])]
  rw [mergeIntoFirst, if_pos h32]
  rfl

theorem mergeOnce_singleton (cmpf : SumsFile → SumsFile → Bool)
    (m : SumsFile) : mergeOnce cmpf [m] = [m] := by
  rw [mergeOnce]
  show sortFiles (mergeStepGo cmpf (0 + 1) [m] []) = [m]
  rw [mergeStepGo]
  rw [dif_neg (by simp)]
  have hlast : ([m].getLast (by simp)) = m := by rfl
  have hdrop : ([m]).dropLast = [] := by rfl
  rw [hlast, hdrop]
  rw [mergeIntoFirst]
  show sortFiles (mergeStepGo cmpf 0 [] ([] ++ [m])) = [m]
  rw [mergeStepGo]
  rfl



theorem consistentWith_refl (a : SumsFile) : consistentWith a a := by
  intro k va vb h1 h2
  rw [h1] at h2
  cases h2
  rfl

theorem consistentWith_symm (a b : SumsFile) (h : consistentWith a b) :
    consistentWith b a := by
  intro k va vb h1 h2
  exact (h k vb va h2 h1).symm

theorem is_same_self (y z : SumsFile)
    (hn : (y.checksums.map Prod.fst).Nodup)
    (h : y.is_same z = true) : y.is_same y = true := by
  obtain ⟨-, kv, hmem, -, -, -⟩ := (is_same_iff y z).mp h
  exact (is_same_iff y y).mpr
    ⟨rfl, kv, hmem, kv.2, btreeGet_of_mem _ _ _ hn hmem, rfl⟩

theorem run3 (x1 x2 x3 : SumsFile)
    (hs1 : x1.checksums.Pairwise (fun p q => cmpString p.1 q.1 = .lt))
    (hs2 : x2.checksums.Pairwise (fun p q => cmpString p.1 q.1 = .lt))
    (hs3 : x3.checksums.Pairwise (fun p q => cmpString p.1 q.1 = .lt))
    (hsz12 : x1.size = x2.size) (hsz23 : x2.size = x3.size)
    (hc12 : consistentWith x1 x2) (hc13 : consistentWith x1 x3)
    (hc23 : consistentWith x2 x3)
    (hd1 : x3.is_same x1 = true ∨ x3.is_same x2 = true)
    (hd2 : x2.is_same x1 = true ∨ x2.is_same x3 = true)
    (hd3 : x1.is_same x2 = true ∨ x1.is_same x3 = true) :
    ∃ m, mergeStep (fun a b => a.is_same b) [x1, x2, x3] [] = [m] ∧
      m.size = x1.size ∧
      (∀ k, (btreeGet k m.checksums).isSome =
        ((btreeGet k x1.checksums).isSome || (btreeGet k x2.checksums).isSome ||
          (btreeGet k x3.checksums).isSome)) := by
  have hn1 := keysSorted_nodup _ hs1
  have hn2 := keysSorted_nodup _ hs2
  have hn3 := keysSorted_nodup _ hs3
  by_cases h31 : x3.is_same x1 = true
  · -- x3 merges into x1 first
    refine ⟨(x1.merge_mut x3).merge_mut x2, ?_, rfl, ?_⟩
    · rw [mergeStep_three_first _ x1 x2 x3 h31]
      apply mergeStepGo_two
      rcases hd2 with h21 | h23
      · exact is_same_merge_host x2 x1 x3 hn3 hc13 h21
      · exact is_same_merge_absorbed x2 x1 x3 hn3 (hsz12.trans hsz23) h23
    · intro k
      rw [merge_mut_get _ x2 hn2, merge_mut_get x1 x3 hn3]
      cases btreeGet k x1.checksums <;> cases btreeGet k x2.checksums <;>
        cases btreeGet k x3.checksums <;> rfl
  · -- x3 merges into x2, then that merges into x1
    have h31f : x3.is_same x1 = false := by
      rcases h : x3.is_same x1 with _ | _
      · rfl
      · exact absurd h h31
    have h32 : x3.is_same x2 = true := by
      rcases hd1 with h | h
      · exact absurd h h31
      · exact h
    refine ⟨x1.merge_mut (x2.merge_mut x3), ?_, rfl, ?_⟩
    · rw [mergeStep_three_second _ x1 x2 x3 h31f h32]
      apply mergeStepGo_two
      have hm1s := merge_mut_keysSorted x2 x3 hs2
      have h1m : x1.is_same (x2.merge_mut x3) = true := by
        rcases hd3 with h12 | h13
        · exact is_same_merge_host x1 x2 x3 hn3 hc23 h12
        · exact is_same_merge_absorbed x1 x2 x3 hn3 hsz23 h13
      rw [← is_same_symm x1 (x2.merge_mut x3) hn1 (keysSorted_nodup _ hm1s)]
      exact h1m
    · intro k
      have hm1s := merge_mut_keysSorted x2 x3 hs2
      rw [merge_mut_get x1 _ (keysSorted_nodup _ hm1s), merge_mut_get x2 x3 hn3]
      cases btreeGet k x1.checksums <;> cases btreeGet k x2.checksums <;>
        cases btreeGet k x3.checksums <;> rfl



/-- C9, amended. -/
theorem claim_C9_amended (hash : List SumsFile → Nat) (a b c : SumsFile)
    (hsa : a.checksums.Pairwise (fun p q => cmpString p.1 q.1 = .lt))
    (hsb : b.checksums.Pairwise (fun p q => cmpString p.1 q.1 = .lt))
    (hsc : c.checksums.Pairwise (fun p q => cmpString p.1 q.1 = .lt))
    (hab : consistentWith a b) (hbc : consistentWith b c)
    (hac : consistentWith a c)
    (h1 : a.is_same b = true) (h2 : b.is_same c = true) :
    ∃ m, merge_same hash 4 [a, b, c] = some [m] ∧ m.size = a.size ∧
      (∀ k, (btreeGet k m.checksums).isSome = true ↔
        ((btreeGet k a.checksums).isSome = true ∨
          (btreeGet k b.checksums).isSome = true ∨
          (btreeGet k c.checksums).isSome = true)) := by
  have hna := keysSorted_nodup _ hsa
  have hnb := keysSorted_nodup _ hsb
  have hnc := keysSorted_nodup _ hsc
  have hsab : a.size = b.size := ((is_same_iff a b).mp h1).1
  have hsbc : b.size = c.size := ((is_same_iff b c).mp h2).1
  have hRbb : b.is_same b = true := is_same_self b c hnb h2
  have hRba : b.is_same a = true := by
    rw [is_same_symm b a hnb hna]
    exact h1
  have hRcb : c.is_same b = true := by
    rw [is_same_symm c b hnc hnb]
    exact h2
  have hRyb : ∀ y ∈ ([a, b, c] : List SumsFile), y.is_same b = true := by
    intro y hy
    rcases List.mem_cons.mp hy with rfl | hy'
    · exact h1
    · rcases List.mem_cons.mp hy' with rfl | hy''
      · exact hRbb
      · rcases List.mem_cons.mp hy'' with rfl | hy3
        · exact hRcb
        · cases hy3
  have hRby : ∀ y ∈ ([a, b, c] : List SumsFile), b.is_same y = true := by
    intro y hy
    rcases List.mem_cons.mp hy with rfl | hy'
    · exact hRba
    · rcases List.mem_cons.mp hy' with rfl | hy''
      · exact hRbb
      · rcases List.mem_cons.mp hy'' with rfl | hy3
        · exact h2
        · cases hy3
  have hsorted : ∀ y ∈ ([a, b, c] : List SumsFile),
      y.checksums.Pairwise (fun p q => cmpString p.1 q.1 = .lt) := by
    intro y hy
    rcases List.mem_cons.mp hy with rfl | hy'
    · exact hsa
    · rcases List.mem_cons.mp hy' with rfl | hy''
      · exact hsb
      · rcases List.mem_cons.mp hy'' with rfl | hy3
        · exact hsc
        · cases hy3
  have hsize : ∀ y ∈ ([a, b, c] : List SumsFile), y.size = a.size := by
    intro y hy
    rcases List.mem_cons.mp hy with rfl | hy'
    · rfl
    · rcases List.mem_cons.mp hy' with rfl | hy''
      · exact hsab.symm
      · rcases List.mem_cons.mp hy'' with rfl | hy3
        · exact (hsab.trans hsbc).symm
        · cases hy3
  have hcons : ∀ y ∈ ([a, b, c] : List SumsFile),
      ∀ z ∈ ([a, b, c] : List SumsFile), consistentWith y z := by
    intro y hy z hz
    rcases List.mem_cons.mp hy with rfl | hy' <;>
      [skip; rcases List.mem_cons.mp hy' with rfl | hy'' <;>
        [skip; rcases List.mem_cons.mp hy'' with rfl | hy3 <;>
          [skip; exact absurd hy3 (by simp)]]] <;>
    (rcases List.mem_cons.mp hz with rfl | hz' <;>
      [skip; rcases List.mem_cons.mp hz' with rfl | hz'' <;>
        [skip; rcases List.mem_cons.mp hz'' with rfl | hz3 <;>
          [skip; exact absurd hz3 (by simp)]]])
    · exact consistentWith_refl _
    · exact hab
    · exact hac
    · exact consistentWith_symm _ _ hab
    · exact consistentWith_refl _
    · exact hbc
    · exact consistentWith_symm _ _ hac
    · exact consistentWith_symm _ _ hbc
    · exact consistentWith_refl _
  have hperm := sortFiles_perm [a, b, c]
  have hlen : (sortFiles [a, b, c]).length = 3 := by
    rw [sortFiles_length]
    rfl
  obtain ⟨x1, x2, x3, hsf⟩ : ∃ x1 x2 x3,
      sortFiles [a, b, c] = [x1, x2, x3] := by
    rcases hL : sortFiles [a, b, c] with _ | ⟨y1, _ | ⟨y2, _ | ⟨y3, _ | _⟩⟩⟩ <;>
      rw [hL] at hlen <;> simp at hlen
    exact ⟨y1, y2, y3, rfl⟩
  rw [hsf] at hperm
  have hm1 : x1 ∈ ([a, b, c] : List SumsFile) := hperm.mem_iff.mp (by simp)
  have hm2 : x2 ∈ ([a, b, c] : List SumsFile) := hperm.mem_iff.mp (by simp)
  have hm3 : x3 ∈ ([a, b, c] : List SumsFile) := hperm.mem_iff.mp (by simp)
  have hmb : b ∈ ([x1, x2, x3] : List SumsFile) := hperm.mem_iff.mpr (by simp)
  have hd1 : x3.is_same x1 = true ∨ x3.is_same x2 = true := by
    rcases List.mem_cons.mp hmb with rfl | hb'
    · exact Or.inl (hRyb x3 hm3)
    · rcases List.mem_cons.mp hb' with rfl | hb''
      · exact Or.inr (hRyb x3 hm3)
      · rcases List.mem_cons.mp hb'' with rfl | hb3
        · exact Or.inl (hRby x1 hm1)
        · cases hb3
  have hd2 : x2.is_same x1 = true ∨ x2.is_same x3 = true := by
    rcases List.mem_cons.mp hmb with rfl | hb'
    · exact Or.inl (hRyb x2 hm2)
    · rcases List.mem_cons.mp hb' with rfl | hb''
      · exact Or.inl (hRby x1 hm1)
      · rcases List.mem_cons.mp hb'' with rfl | hb3
        · exact Or.inr (hRyb x2 hm2)
        · cases hb3
  have hd3 : x1.is_same x2 = true ∨ x1.is_same x3 = true := by
    rcases List.mem_cons.mp hmb with rfl | hb'
    · exact Or.inl (hRby x2 hm2)
    · rcases List.mem_cons.mp hb' with rfl | hb''
      · exact Or.inl (hRyb x1 hm1)
      · rcases List.mem_cons.mp hb'' with rfl | hb3
        · exact Or.inr (hRyb x1 hm1)
        · cases hb3
  have hsz12 : x1.size = x2.size := by
    rw [hsize x1 hm1, hsize x2 hm2]
  have hsz23 : x2.size = x3.size := by
    rw [hsize x2 hm2, hsize x3 hm3]
  obtain ⟨m, hrun, hmsz, hmget⟩ := run3 x1 x2 x3 (hsorted x1 hm1)
    (hsorted x2 hm2) (hsorted x3 hm3) hsz12 hsz23
    (hcons x1 hm1 x2 hm2) (hcons x1 hm1 x3 hm3) (hcons x2 hm2 x3 hm3)
    hd1 hd2 hd3
  refine ⟨m, ?_, by rw [hmsz, hsize x1 hm1], ?_⟩
  · rw [merge_same, merge_fn, hsf]
    have hmo : mergeOnce (fun a b => a.is_same b) [x1, x2, x3] = [m] := by
      rw [mergeOnce]
      show sortFiles (mergeStep (fun a b => a.is_same b) [x1, x2, x3] []) = [m]
      rw [hrun]
      rfl
    show mergeLoop _ hash (3 + 1) [x1, x2, x3] = some [m]
    rw [mergeLoop]
    simp only [hmo]
    by_cases hh : hash [m] = hash [x1, x2, x3]
    · rw [if_pos hh]
    · rw [if_neg hh]
      show mergeLoop _ hash (2 + 1) [m] = some [m]
      rw [mergeLoop]
      simp [mergeOnce_singleton]
  · intro k
    rw [hmget k]
    simp only [Bool.or_eq_true]
    constructor
    · have fwd : ∀ y ∈ ([a, b, c] : List SumsFile),
          (btreeGet k y.checksums).isSome = true →
          (btreeGet k a.checksums).isSome = true ∨
            (btreeGet k b.checksums).isSome = true ∨
            (btreeGet k c.checksums).isSome = true := by
        intro y hy hget
        rcases List.mem_cons.mp hy with rfl | hy'
        · exact Or.inl hget
        · rcases List.mem_cons.mp hy' with rfl | hy''
          · exact Or.inr (Or.inl hget)
          · rcases List.mem_cons.mp hy'' with rfl | hy3
            · exact Or.inr (Or.inr hget)
            · cases hy3
      rintro ((h | h) | h)
      · exact fwd x1 hm1 h
      · exact fwd x2 hm2 h
      · exact fwd x3 hm3 h
    · have back : ∀ y ∈ ([x1, x2, x3] : List SumsFile),
          (btreeGet k y.checksums).isSome = true →
          ((btreeGet k x1.checksums).isSome = true ∨
            (btreeGet k x2.checksums).isSome = true) ∨
            (btreeGet k x3.checksums).isSome = true := by
        intro y hy hget
        rcases List.mem_cons.mp hy with rfl | hy'
        · exact Or.inl (Or.inl hget)
        · rcases List.mem_cons.mp hy' with rfl | hy''
          · exact Or.inl (Or.inr hget)
          · rcases List.mem_cons.mp hy'' with rfl | hy3
            · exact Or.inr hget
            · cases hy3
      rintro (h | h | h)
      · exact back a (hperm.mem_iff.mpr (by simp)) h
      · exact back b hmb h
      · exact back c (hperm.mem_iff.mpr (by simp)) h



theorem consistentWith_of_forall (a b : SumsFile)
    (h : ∀ kv ∈ a.checksums, ∀ kv' ∈ b.checksums,
      kv.1 = kv'.1 → kv.2.checksum = kv'.2.checksum) :
    consistentWith a b := by
  intro k va vb h1 h2
  exact h (k, va) (mem_of_btreeGet _ _ _ h1) (k, vb) (mem_of_btreeGet _ _ _ h2) rfl

/-- C9, counterexample. -/
theorem claim_C9_counterexample :
    (SumsFile.is_same ⟨"1", some 1, [("md5", ⟨"w", none⟩), ("sha1", ⟨"x", none⟩)]⟩
      ⟨"1", some 1, [("md5", ⟨"v", none⟩), ("sha1", ⟨"x", none⟩)]⟩ = true) ∧
    (SumsFile.is_same ⟨"1", some 1, [("md5", ⟨"v", none⟩), ("sha1", ⟨"x", none⟩)]⟩
      ⟨"1", some 1, [("md5", ⟨"v", none⟩)]⟩ = true) ∧
    ((merge_same List.length 4
      [⟨"1", some 1, [("md5", ⟨"w", none⟩), ("sha1", ⟨"x", none⟩)]⟩,
       ⟨"1", some 1, [("md5", ⟨"v", none⟩), ("sha1", ⟨"x", none⟩)]⟩,
       ⟨"1", some 1, [("md5", ⟨"v", none⟩)]⟩]).map List.length = some 2) := by
  refine ⟨by decide, by decide, ?_⟩
  decide

/-- Witness for claim_C9_amended at the spec's transitive-grouping example. -/
theorem claim_C9_amended_witness :
    ∃ m, merge_same List.length 4
      [⟨"1", some 1, [("md5", ⟨"m", none⟩), ("sha1", ⟨"s", none⟩)]⟩,
       ⟨"1", some 1, [("sha1", ⟨"s", none⟩), ("sha256", ⟨"t", none⟩)]⟩,
       ⟨"1", some 1, [("crc32", ⟨"u", none⟩), ("sha256", ⟨"t", none⟩)]⟩] =
      some [m] ∧
      m.size = some 1 ∧
      (∀ k, (btreeGet k m.checksums).isSome = true ↔
        ((btreeGet k [("md5", (⟨"m", none⟩ : Checksum)),
            ("sha1", ⟨"s", none⟩)]).isSome = true ∨
          (btreeGet k [("sha1", (⟨"s", none⟩ : Checksum)),
            ("sha256", ⟨"t", none⟩)]).isSome = true ∨
          (btreeGet k [("crc32", (⟨"u", none⟩ : Checksum)),
            ("sha256", ⟨"t", none⟩)]).isSome = true)) :=
  claim_C9_amended List.length _ _ _ (by decide) (by decide) (by decide)
    (consistentWith_of_forall _ _ (by decide))
    (consistentWith_of_forall _ _ (by decide))
    (consistentWith_of_forall _ _ (by decide))
    (by decide) (by decide)

theorem digit_char_isDigit (d : Nat) (h : d < 10) :
    (Char.ofNat (48 + d)).isDigit = true := by
  interval_cases d <;> decide

theorem digit_char_toNat (d : Nat) (h : d < 10) :
    (Char.ofNat (48 + d)).toNat = 48 + d := by
  interval_cases d <;> decide

theorem natChars_ne_nil (n : Nat) : natChars n ≠ [] := by
  rw [natChars]
  split
  · simp
  · simp

theorem natChars_all_digit (n : Nat) : ∀ c ∈ natChars n, c.isDigit = true := by
  induction n using Nat.strong_induction_on with
  | _ n ih =>
    rw [natChars]
    split
    · next h =>
      intro c hc
      simp only [List.mem_singleton] at hc
      subst hc
      exact digit_char_isDigit n h
    · next h =>
      intro c hc
      rcases List.mem_append.mp hc with hc' | hc'
      · exact ih (n / 10) (Nat.div_lt_self (by omega) (by omega)) c hc'
      · simp only [List.mem_singleton] at hc'
        subst hc'
        exact digit_char_isDigit (n % 10) (Nat.mod_lt _ (by omega))

theorem digitsVal_append_digit (xs : List Char) (c : Char) :
    digitsVal (xs ++ [c]) = 10 * digitsVal xs + (c.toNat - 48) := by
  unfold digitsVal
  rw [List.foldl_append]
  rfl

theorem digitsVal_natChars (n : Nat) : digitsVal (natChars n) = n := by
  induction n using Nat.strong_induction_on with
  | _ n ih =>
    rw [natChars]
    split
    · next h =>
      show digitsVal [Char.ofNat (48 + n)] = n
      unfold digitsVal
      simp [digit_char_toNat n h]
    · next h =>
      rw [digitsVal_append_digit]
      rw [ih (n / 10) (Nat.div_lt_self (by omega) (by omega))]
      rw [digit_char_toNat (n % 10) (Nat.mod_lt _ (by omega))]
      omega

theorem not_digit_mem_natChars (n : Nat) (c : Char) (hc : c.isDigit = false) :
    c ∉ natChars n := by
  intro hm
  rw [natChars_all_digit n c hm] at hc
  cases hc

theorem natChars_head_ne_plus (n : Nat) :
    (natChars n).head? ≠ some '+' := by
  intro h
  have hm : ('+' : Char) ∈ natChars n := by
    rcases hn : natChars n with _ | ⟨c, t⟩
    · rw [hn] at h
      cases h
    · rw [hn] at h
      simp only [List.head?_cons, Option.some.injEq] at h
      rw [h]
      simp
  exact not_digit_mem_natChars n '+' (by decide) hm

theorem parse_u64_natChars (n : Nat) (h : n < 2 ^ 64) :
    parse_u64 (natChars n) = some n := by
  rw [parse_u64]
  simp only [if_neg (natChars_head_ne_plus n)]
  rw [if_pos ⟨natChars_ne_nil n,
    by rw [List.all_eq_true]; intro x hx; exact natChars_all_digit n x hx,
    by rw [digitsVal_natChars]; exact h⟩]
  rw [digitsVal_natChars]

theorem parse_u64_of_nondigit (cs : List Char) (c : Char)
    (hc : c.isDigit = false)
    (hmem : c ∈ cs) (hmem2 : cs.head? = some '+' → c ∈ cs.tail) :
    parse_u64 cs = none := by
  rw [parse_u64]
  have hfail : ∀ (cs' : List Char), c ∈ cs' →
      ¬(cs' ≠ [] ∧ cs'.all Char.isDigit = true ∧ digitsVal cs' < 2 ^ 64) := by
    rintro cs' hm ⟨-, hall, -⟩
    rw [List.all_eq_true] at hall
    rw [hall c hm] at hc
    cases hc
  by_cases hp : cs.head? = some '+'
  · simp only [if_pos hp]
    rw [if_neg (hfail cs.tail (hmem2 hp))]
  · simp only [if_neg hp]
    rw [if_neg (hfail cs hmem)]

theorem takeWhile_append_all (p : Char → Bool) :
    ∀ (l l' : List Char), (∀ c ∈ l, p c = true) →
      (l ++ l').takeWhile p = l ++ l'.takeWhile p := by
  intro l
  induction l with
  | nil => intro l' _; rfl
  | cons c t ih =>
    intro l' hall
    rw [List.cons_append, List.takeWhile_cons]
    rw [hall c (by simp)]
    simp only [ite_true]
    rw [ih l' (fun x hx => hall x (by simp [hx]))]
    simp

theorem dropWhile_append_all (p : Char → Bool) :
    ∀ (l l' : List Char), (∀ c ∈ l, p c = true) →
      (l ++ l').dropWhile p = l'.dropWhile p := by
  intro l
  induction l with
  | nil => intro l' _; rfl
  | cons c t ih =>
    intro l' hall
    rw [List.cons_append, List.dropWhile_cons]
    rw [hall c (by simp)]
    simp only [ite_true]
    exact ih l' (fun x hx => hall x (by simp [hx]))

theorem parse_size_natChars_b (n : Nat) (h : n < 2 ^ 64) :
    parse_size (natChars n ++ ['b']) = some n := by
  rw [parse_size]
  have htake : (natChars n ++ ['b']).takeWhile Char.isDigit = natChars n := by
    rw [takeWhile_append_all Char.isDigit (natChars n) ['b'] (natChars_all_digit n)]
    simp [List.takeWhile_cons]
  have hdrop : (natChars n ++ ['b']).dropWhile Char.isDigit = ['b'] := by
    rw [dropWhile_append_all Char.isDigit (natChars n) ['b'] (natChars_all_digit n)]
    simp [List.dropWhile_cons]
  simp only [htake, hdrop]
  rw [if_neg (by simpa using natChars_ne_nil n)]
  have hmap : (['b'] : List Char).map Char.toLower = ['b'] := by decide
  rw [hmap]
  show (if digitsVal (natChars n) * 1 < 2 ^ 64 then
    some (digitsVal (natChars n) * 1) else none) = some n
  rw [digitsVal_natChars]
  simp only [Nat.mul_one]
  rw [if_pos (by omega)]

theorem dashAws_data : "-aws-".data = ['-', 'a', 'w', 's', '-'] := rfl

theorem awsEtag_data :
    "aws-etag".data = ['a', 'w', 's', '-', 'e', 't', 'a', 'g'] := rfl

theorem mdAws_data : "md5-aws".data = ['m', 'd', '5', '-', 'a', 'w', 's'] := rfl

theorem etagDash_data : "etag-".data = ['e', 't', 'a', 'g', '-'] := rfl

theorem mk_data (s : String) : String.mk s.data = s := rfl

theorem isPrefixOf_subset (l1 l2 : List Char) (h : l1.isPrefixOf l2 = true) :
    ∀ c ∈ l1, c ∈ l2 := by
  have hp : l1 <+: l2 := List.isPrefixOf_iff_prefix.mp h
  exact fun c hc => hp.subset hc

theorem containsSeq_subset (pat : List Char) :
    ∀ s : List Char, containsSeq pat s = true → ∀ c ∈ pat, c ∈ s := by
  intro s
  induction s with
  | nil =>
    intro h c hc
    rw [containsSeq] at h
    exact isPrefixOf_subset pat [] h c hc
  | cons x rest ih =>
    intro h c hc
    rw [containsSeq, Bool.or_eq_true] at h
    rcases h with h | h
    · exact isPrefixOf_subset pat (x :: rest) h c hc
    · exact List.mem_cons_of_mem x (ih h c hc)

theorem containsSeq_eq_false_of_not_mem (pat s : List Char) (c : Char)
    (hc : c ∈ pat) (hs : c ∉ s) : containsSeq pat s = false := by
  cases h : containsSeq pat s with
  | false => rfl
  | true => exact absurd (containsSeq_subset pat s h c hc) hs

theorem replaceAllGo_of_not_contains (pat repl : List Char) :
    ∀ (fuel : Nat) (s : List Char), containsSeq pat s = false →
      replaceAllGo pat repl fuel s = s := by
  intro fuel
  induction fuel with
  | zero => intro s _; rfl
  | succ n ih =>
    intro s hs
    match s with
    | [] => rfl
    | c :: rest =>
      rw [containsSeq, Bool.or_eq_false_iff] at hs
      rw [replaceAllGo]
      rw [if_neg (by simp [hs.1])]
      rw [ih rest hs.2]

theorem replaceAll_of_not_contains (pat repl s : List Char)
    (hs : containsSeq pat s = false) : replaceAll pat repl s = s :=
  replaceAllGo_of_not_contains pat repl s.length s hs

theorem rsplitLast_eq_none_of_not_contains (s0 : Char) (stl : List Char) :
    ∀ s : List Char, containsSeq (s0 :: stl) s = false →
      rsplitLast (s0 :: stl) s = none := by
  intro s
  induction s with
  | nil =>
    intro _
    rw [rsplitLast]
    rw [if_neg (by simp [List.isPrefixOf])]
  | cons c rest ih =>
    intro hs
    rw [containsSeq, Bool.or_eq_false_iff] at hs
    rw [rsplitLast, ih hs.2]
    dsimp only
    rw [if_neg (by simp [hs.1])]

theorem rsplitLast_append (s0 : Char) (stl y : List Char)
    (hy : containsSeq (s0 :: stl) (stl ++ y) = false) :
    ∀ x : List Char,
      rsplitLast (s0 :: stl) (x ++ (s0 :: stl) ++ y) = some (y, x) := by
  intro x
  induction x with
  | nil =>
    show rsplitLast (s0 :: stl) (s0 :: (stl ++ y)) = some (y, [])
    rw [rsplitLast]
    rw [rsplitLast_eq_none_of_not_contains s0 stl (stl ++ y) hy]
    dsimp only
    rw [if_pos (by rw [List.isPrefixOf_iff_prefix]
                   exact List.prefix_append (s0 :: stl) y)]
    show some (((s0 :: stl) ++ y).drop (s0 :: stl).length, []) = some (y, [])
    rw [List.drop_left]
  | cons c x' ih =>
    show rsplitLast (s0 :: stl) (c :: (x' ++ (s0 :: stl) ++ y)) = some (y, c :: x')
    rw [rsplitLast, ih]

theorem isPrefixOf_cons_ne (p c : Char) (ps cs : List Char) (h : p ≠ c) :
    (p :: ps).isPrefixOf (c :: cs) = false := by
  show (p == c && ps.isPrefixOf cs) = false
  rw [beq_eq_false_iff_ne.mpr h, Bool.false_and]

theorem containsSeq_dashAws (y : List Char) (ha : 'a' ∉ y) :
    containsSeq ['-', 'a', 'w', 's', '-'] ('a' :: 'w' :: 's' :: '-' :: y) =
      false := by
  have h4 : containsSeq ['-', 'a', 'w', 's', '-'] y = false :=
    containsSeq_eq_false_of_not_mem _ y 'a' (by decide) ha
  have h3 : containsSeq ['-', 'a', 'w', 's', '-'] ('-' :: y) = false := by
    rw [containsSeq, h4, Bool.or_false]
    cases hp : (['-', 'a', 'w', 's', '-'] : List Char).isPrefixOf ('-' :: y) with
    | false => rfl
    | true =>
      have hm : 'a' ∈ '-' :: y := isPrefixOf_subset _ _ hp 'a' (by decide)
      rcases List.mem_cons.mp hm with h | h
      · exact absurd h (by decide)
      · exact absurd h ha
  rw [containsSeq, isPrefixOf_cons_ne _ _ _ _ (by decide), Bool.false_or]
  rw [containsSeq, isPrefixOf_cons_ne _ _ _ _ (by decide), Bool.false_or]
  rw [containsSeq, isPrefixOf_cons_ne _ _ _ _ (by decide), Bool.false_or]
  exact h3

theorem stripEtag_of_no_t (cs : List Char) (ht : 't' ∉ cs) :
    stripEtag cs = cs := by
  rw [stripEtag]
  rw [if_neg (fun hp => ht (isPrefixOf_subset _ _ hp 't' (by decide)))]

theorem hashAlg_name_no_t (alg : HashAlg) : 't' ∉ (HashAlg.name alg).data := by
  cases alg <;> decide

theorem hashAlg_name_len (alg : HashAlg) :
    3 ≤ (HashAlg.name alg).data.length := by
  cases alg <;> decide

theorem parse_part_size_shape (alg : HashAlg) (y : List Char)
    (ht : 't' ∉ y) (ha : 'a' ∉ y) :
    parse_part_size
        (String.mk (alg.name.data ++ ('-' :: 'a' :: 'w' :: 's' :: '-' :: y))) =
      (match parse_u64 y with
       | some k =>
         if k = 0 then Except.error (Err.parseError "cannot use zero part number")
         else Except.ok (alg.name, PartMode.PartNumber k)
       | none =>
         match (y.splitOn '-').mapM parse_size with
         | some sizes => Except.ok (alg.name, PartMode.PartSizes sizes)
         | none => Except.error (Err.parseError "invalid size")) := by
  have hLt : 't' ∉ alg.name.data ++ ('-' :: 'a' :: 'w' :: 's' :: '-' :: y) := by
    intro hm
    rcases List.mem_append.mp hm with h | h
    · exact hashAlg_name_no_t alg h
    · simp only [List.mem_cons] at h
      rcases h with h | h | h | h | h | h
      · exact absurd h (by decide)
      · exact absurd h (by decide)
      · exact absurd h (by decide)
      · exact absurd h (by decide)
      · exact absurd h (by decide)
      · exact ht h
  have hrep : replaceAll ['a', 'w', 's', '-', 'e', 't', 'a', 'g']
      ['m', 'd', '5', '-', 'a', 'w', 's']
      (alg.name.data ++ ('-' :: 'a' :: 'w' :: 's' :: '-' :: y)) =
      alg.name.data ++ ('-' :: 'a' :: 'w' :: 's' :: '-' :: y) :=
    replaceAll_of_not_contains _ _ _
      (containsSeq_eq_false_of_not_mem _ _ 't' (by decide) hLt)
  have hlen : ¬ (alg.name.data ++ ('-' :: 'a' :: 'w' :: 's' :: '-' :: y) =
      ['m', 'd', '5', '-', 'a', 'w', 's']) := by
    intro heq
    have hl := congrArg List.length heq
    simp only [List.length_append, List.length_cons, List.length_nil] at hl
    have h3 := hashAlg_name_len alg
    omega
  have hsplit : rsplitLast ['-', 'a', 'w', 's', '-']
      (alg.name.data ++ ('-' :: 'a' :: 'w' :: 's' :: '-' :: y)) =
      some (y, alg.name.data) := by
    have h := rsplitLast_append '-' ['a', 'w', 's', '-'] y
      (containsSeq_dashAws y ha) alg.name.data
    rw [List.append_assoc] at h
    exact h
  have hsdata : (String.mk
      (alg.name.data ++ ('-' :: 'a' :: 'w' :: 's' :: '-' :: y))).data =
      alg.name.data ++ ('-' :: 'a' :: 'w' :: 's' :: '-' :: y) := rfl
  clear hsdata
  simp only [parse_part_size]
  rw [hrep]
  rw [if_neg hlen]
  rw [hsplit]
  dsimp only
  rw [stripEtag_of_no_t y ht]
  cases hp : parse_u64 y with
  | some k =>
    dsimp only
    by_cases hk : k = 0
    · rw [if_pos hk, if_pos hk]
    · rw [if_neg hk, if_neg hk]
  | none =>
    dsimp only
    cases hm : (y.splitOn '-').mapM parse_size with
    | some sizes => rfl
    | none => rfl

theorem intercalate_nil (sep : List Char) :
    List.intercalate sep ([] : List (List Char)) = [] := rfl

theorem intercalate_single (sep x : List Char) :
    List.intercalate sep [x] = x := by
  simp [List.intercalate]

theorem intercalate_cons2 (sep x y : List Char) (zs : List (List Char)) :
    List.intercalate sep (x :: y :: zs) =
      x ++ sep ++ List.intercalate sep (y :: zs) := by
  simp [List.intercalate, List.intersperse_cons_cons]

theorem renderParts_single (n : Nat) :
    renderParts [n] = natChars n ++ ['b'] := by
  rw [renderParts, List.map_cons, List.map_nil, intercalate_single]

theorem renderParts_cons2 (n m : Nat) (rest : List Nat) :
    renderParts (n :: m :: rest) =
      (natChars n ++ ['b']) ++ '-' :: renderParts (m :: rest) := by
  rw [renderParts, List.map_cons, List.map_cons, intercalate_cons2]
  rw [renderParts, List.map_cons]
  simp

theorem renderParts_chars (sizes : List Nat) :
    ∀ c ∈ renderParts sizes, c.isDigit = true ∨ c = 'b' ∨ c = '-' := by
  induction sizes with
  | nil =>
    intro c hc
    simp [renderParts, List.intercalate] at hc
  | cons n rest ih =>
    cases rest with
    | nil =>
      intro c hc
      rw [renderParts_single] at hc
      rcases List.mem_append.mp hc with h | h
      · exact Or.inl (natChars_all_digit n c h)
      · simp only [List.mem_singleton] at h
        exact Or.inr (Or.inl h)
    | cons m rest' =>
      intro c hc
      rw [renderParts_cons2] at hc
      rcases List.mem_append.mp hc with h | h
      · rcases List.mem_append.mp h with h' | h'
        · exact Or.inl (natChars_all_digit n c h')
        · simp only [List.mem_singleton] at h'
          exact Or.inr (Or.inl h')
      · rcases List.mem_cons.mp h with h' | h'
        · exact Or.inr (Or.inr h')
        · exact ih c h'

theorem renderParts_no_t (sizes : List Nat) : 't' ∉ renderParts sizes := by
  intro hm
  rcases renderParts_chars sizes 't' hm with h | h | h
  · exact absurd h (by decide)
  · exact absurd h (by decide)
  · exact absurd h (by decide)

theorem renderParts_no_a (sizes : List Nat) : 'a' ∉ renderParts sizes := by
  intro hm
  rcases renderParts_chars sizes 'a' hm with h | h | h
  · exact absurd h (by decide)
  · exact absurd h (by decide)
  · exact absurd h (by decide)

theorem renderParts_head (n : Nat) (rest : List Nat) :
    ∃ c t, renderParts (n :: rest) = c :: t ∧ c.isDigit = true := by
  obtain ⟨c, t, hct⟩ := List.exists_cons_of_ne_nil (natChars_ne_nil n)
  have hc : c.isDigit = true := natChars_all_digit n c (by rw [hct]; simp)
  cases rest with
  | nil =>
    refine ⟨c, t ++ ['b'], ?_, hc⟩
    rw [renderParts_single, hct]
    simp
  | cons m rest' =>
    refine ⟨c, (t ++ ['b']) ++ '-' :: renderParts (m :: rest'), ?_, hc⟩
    rw [renderParts_cons2, hct]
    simp

theorem b_mem_renderParts (n : Nat) (rest : List Nat) :
    'b' ∈ renderParts (n :: rest) := by
  cases rest with
  | nil =>
    rw [renderParts_single]
    simp
  | cons m rest' =>
    rw [renderParts_cons2]
    simp

theorem parse_u64_renderParts (n : Nat) (rest : List Nat) :
    parse_u64 (renderParts (n :: rest)) = none := by
  obtain ⟨c, t, hct, hcd⟩ := renderParts_head n rest
  refine parse_u64_of_nondigit _ 'b' (by decide) (b_mem_renderParts n rest) ?_
  intro hp
  rw [hct] at hp
  simp only [List.head?_cons, Option.some.injEq] at hp
  rw [hp] at hcd
  exact absurd hcd (by decide)

theorem splitOn_renderParts (sizes : List Nat) (hne : sizes ≠ []) :
    (renderParts sizes).splitOn '-' =
      sizes.map (fun n => natChars n ++ ['b']) := by
  rw [renderParts]
  refine List.splitOn_intercalate _ '-' ?_ ?_
  · intro l hl
    rcases List.mem_map.mp hl with ⟨n, _, rfl⟩
    intro hm
    rcases List.mem_append.mp hm with h | h
    · exact (not_digit_mem_natChars n '-' (by decide)) h
    · simp only [List.mem_singleton] at h
      exact absurd h (by decide)
  · simpa using hne

theorem mapM_parse_size_render (sizes : List Nat)
    (hb : ∀ n ∈ sizes, n < 2 ^ 64) :
    (sizes.map (fun n => natChars n ++ ['b'])).mapM parse_size = some sizes := by
  induction sizes with
  | nil => rfl
  | cons n rest ih =>
    rw [List.map_cons, List.mapM_cons]
    rw [parse_size_natChars_b n (hb n (by simp))]
    rw [ih (fun m hm => hb m (by simp [hm]))]
    rfl

theorem canonicalSpec_shape (alg : HashAlg) (sizes : List Nat) :
    canonicalSpec alg sizes =
      String.mk (alg.name.data ++
        ('-' :: 'a' :: 'w' :: 's' :: '-' :: renderParts sizes)) := by
  rw [canonicalSpec, renderParts, List.append_assoc]
  rfl

theorem parse_canonical (alg : HashAlg) (sizes : List Nat) (hne : sizes ≠ [])
    (hb : ∀ n ∈ sizes, n < 2 ^ 64) :
    parse_part_size (canonicalSpec alg sizes) =
      Except.ok (alg.name, PartMode.PartSizes sizes) := by
  obtain ⟨n, rest, rfl⟩ := List.exists_cons_of_ne_nil hne
  rw [canonicalSpec_shape]
  rw [parse_part_size_shape alg (renderParts (n :: rest))
    (renderParts_no_t _) (renderParts_no_a _)]
  rw [parse_u64_renderParts n rest]
  dsimp only
  rw [splitOn_renderParts (n :: rest) (by simp)]
  rw [mapM_parse_size_render (n :: rest) hb]

theorem standardCtx_from_str_name (alg : HashAlg) :
    StandardCtx.from_str alg.name = Except.ok ⟨alg, []⟩ := by
  cases alg <;> rfl

theorem awsETag_from_str_canonical (alg : HashAlg) (sizes : List Nat)
    (hne : sizes ≠ []) (hb : ∀ n ∈ sizes, n < 2 ^ 64) :
    AWSETagCtx.from_str (canonicalSpec alg sizes) =
      Except.ok (AWSETagCtx.new ⟨alg, []⟩ (PartMode.PartSizes sizes) none) := by
  rw [AWSETagCtx.from_str, parse_canonical alg sizes hne hb]
  dsimp only
  rw [standardCtx_from_str_name]

theorem display_canonical (alg : HashAlg) (sizes : List Nat) :
    (AWSETagCtx.new ⟨alg, []⟩ (PartMode.PartSizes sizes) none).display =
      some (canonicalSpec alg sizes) := rfl

theorem standardCtx_round_trip (s : String) (ctx : StandardCtx)
    (h : StandardCtx.from_str s = Except.ok ctx) :
    ctx.display = s ∧ StandardCtx.from_str ctx.display = Except.ok ctx := by
  rw [StandardCtx.from_str] at h
  by_cases h1 : s = "md5"
  · rw [if_pos h1] at h
    cases h
    exact ⟨h1.symm, rfl⟩
  · rw [if_neg h1] at h
    by_cases h2 : s = "sha1"
    · rw [if_pos h2] at h
      cases h
      exact ⟨h2.symm, rfl⟩
    · rw [if_neg h2] at h
      by_cases h3 : s = "sha256"
      · rw [if_pos h3] at h
        cases h
        exact ⟨h3.symm, rfl⟩
      · rw [if_neg h3] at h
        by_cases h4 : s = "crc32"
        · rw [if_pos h4] at h
          cases h
          exact ⟨h4.symm, rfl⟩
        · rw [if_neg h4] at h
          by_cases h5 : s = "crc32c"
          · rw [if_pos h5] at h
            cases h
            exact ⟨h5.symm, rfl⟩
          · rw [if_neg h5] at h
            cases h

/-- Claim C1 — refuted on aws_etag.rs lines 167-205: feeding the byte stream
`[10, 20, 30]` to a two-part composite context (`PartNumber 2`, file size 2,
part size 1) one byte per `update` call loses the middle byte — two
consecutive boundary-crossing updates overwrite the pending remainder without
ever hashing it — while feeding the same stream as a single chunk keeps every
byte, so the two chunkings produce different top-level digests (shown with
the identity digest function). -/
theorem claim_C1 :
    List.flatten [[10], [20], [30]] = List.flatten [[10, 20, 30]] ∧
    runAwsEtag id (PartMode.PartNumber 2) (some 2) [[10], [20], [30]] =
      some [10, 30] ∧
    runAwsEtag id (PartMode.PartNumber 2) (some 2) [[10, 20, 30]] =
      some [10, 20, 30] := by
  refine ⟨rfl, ?_, ?_⟩
  · rfl
  · rfl

/-- Claim C4 — counterexample on aws_etag.rs lines 248-286 and 330-385: the
spec string `md5-aws-2` parses to `PartNumber 2`, but its display panics
without a file size (so `display ∘ parse` is undefined), and with file size
10 it displays as `md5-aws-5b`, which re-parses to `PartSizes [5]`, not to
`PartNumber 2`: `parse ∘ display` is not the identity on `PartCount`
specs. -/
theorem claim_C4_counterexample :
    parse_part_size "md5-aws-2" = Except.ok ("md5", PartMode.PartNumber 2) ∧
    (AWSETagCtx.new ⟨HashAlg.md5, []⟩ (PartMode.PartNumber 2) none).display =
      none ∧
    (AWSETagCtx.new ⟨HashAlg.md5, []⟩ (PartMode.PartNumber 2)
      (some 10)).display = some "md5-aws-5b" ∧
    parse_part_size "md5-aws-5b" = Except.ok ("md5", PartMode.PartSizes [5]) ∧
    PartMode.PartSizes [5] ≠ PartMode.PartNumber 2 := by
  refine ⟨rfl, rfl, ?_, rfl, by decide⟩
  have h5 : natChars 5 = ['5'] := by
    rw [natChars]
    norm_num
  have hfp : (AWSETagCtx.new ⟨HashAlg.md5, []⟩ (PartMode.PartNumber 2)
      (some 10)).format_parts = some ['5', 'b'] := by
    rw [AWSETagCtx.format_parts]
    dsimp only [AWSETagCtx.new]
    rw [if_neg (by simp)]
    have hps : part_number_to_size 2 ((some 10).getD 0) = 5 := by decide
    rw [hps, h5]
    rfl
  rw [AWSETagCtx.display, hfp]
  rfl

/-- Claim C4 — amended: on `PartSizes` composite specs and on simple specs
the round trip does hold: the canonical `PartSizes` spec string parses to its
algorithm and sizes, the parsed context displays back exactly the canonical
string (so `display ∘ parse = canonical` and `parse ∘ display = parse`), and
every accepted simple spec string is canonical and round-trips; `PartCount`
specs are excluded (see the counterexample). -/
theorem claim_C4_amended (alg : HashAlg) (sizes : List Nat) (hne : sizes ≠ [])
    (hb : ∀ n ∈ sizes, n < 2 ^ 64) :
    parse_part_size (canonicalSpec alg sizes) =
      Except.ok (alg.name, PartMode.PartSizes sizes) ∧
    AWSETagCtx.from_str (canonicalSpec alg sizes) =
      Except.ok (AWSETagCtx.new ⟨alg, []⟩ (PartMode.PartSizes sizes) none) ∧
    (AWSETagCtx.new ⟨alg, []⟩ (PartMode.PartSizes sizes) none).display =
      some (canonicalSpec alg sizes) ∧
    (∀ s ctx, StandardCtx.from_str s = Except.ok ctx →
      ctx.display = s ∧ StandardCtx.from_str ctx.display = Except.ok ctx) :=
  ⟨parse_canonical alg sizes hne hb,
   awsETag_from_str_canonical alg sizes hne hb,
   display_canonical alg sizes,
   fun s ctx h => standardCtx_round_trip s ctx h⟩

/-- Witness for the amended C4 at `md5-aws-5b`. -/
theorem claim_C4_amended_witness :
    (([5] : List Nat) ≠ [] ∧ ∀ n ∈ ([5] : List Nat), n < 2 ^ 64) ∧
    parse_part_size (canonicalSpec HashAlg.md5 [5]) =
      Except.ok ("md5", PartMode.PartSizes [5]) :=
  ⟨⟨by decide, by decide⟩,
   (claim_C4_amended HashAlg.md5 [5] (by decide) (by decide)).1⟩

theorem part_number_to_size_eq (n fs : Nat) (h : 0 < n) :
    part_number_to_size n fs = (fs + n - 1) / n := by
  rw [part_number_to_size]
  have hm : fs % n < n := Nat.mod_lt fs h
  have hd := Nat.div_add_mod fs n
  rcases eq_or_ne (fs % n) 0 with hr | hr
  · rw [if_pos hr]
    have he : fs + n - 1 = n * (fs / n) + (n - 1) := by omega
    have hz : (n - 1) / n = 0 := Nat.div_eq_of_lt (by omega)
    rw [he, Nat.mul_add_div h, hz]
  · rw [if_neg hr]
    have he : fs + n - 1 = n * (fs / n + 1) + (fs % n - 1) := by
      rw [Nat.mul_add, Nat.mul_one]
      omega
    have hz : (fs % n - 1) / n = 0 := Nat.div_eq_of_lt (by omega)
    rw [he, Nat.mul_add_div h, hz]

/-- Claim C7 — confirmed (aws_etag.rs lines 298-320 and 352-354): in
`PartCount` mode `next_part_size` fails with a `ParseError` exactly when no
file size is present and otherwise returns `ceil(file_size / n)`; the
`PartCount` spec string itself parses fine with no file size attached
(`from_str` builds the context with `file_size = none`), so the failure is
deferred to compute time. -/
theorem claim_C7 (self : AWSETagCtx) (n : Nat)
    (hmode : self.part_mode = PartMode.PartNumber n) (hn : 0 < n) :
    (self.file_size = none →
      self.next_part_size = Except.error
        (Err.parseError "cannot use part number syntax without file size")) ∧
    (∀ fs, self.file_size = some fs →
      self.next_part_size = Except.ok ((fs + n - 1) / n, self)) ∧
    (∀ alg : HashAlg, n < 2 ^ 64 →
      parse_part_size (String.mk (alg.name.data ++
          ('-' :: 'a' :: 'w' :: 's' :: '-' :: natChars n))) =
        Except.ok (alg.name, PartMode.PartNumber n) ∧
      AWSETagCtx.from_str (String.mk (alg.name.data ++
          ('-' :: 'a' :: 'w' :: 's' :: '-' :: natChars n))) =
        Except.ok (AWSETagCtx.new ⟨alg, []⟩ (PartMode.PartNumber n) none)) := by
  refine ⟨?_, ?_, ?_⟩
  · intro hfs
    rw [AWSETagCtx.next_part_size, hmode]
    dsimp only
    rw [hfs]
  · intro fs hfs
    rw [AWSETagCtx.next_part_size, hmode]
    dsimp only
    rw [hfs]
    dsimp only
    rw [part_number_to_size_eq n fs hn]
  · intro alg hb
    have hparse : parse_part_size (String.mk (alg.name.data ++
        ('-' :: 'a' :: 'w' :: 's' :: '-' :: natChars n))) =
        Except.ok (alg.name, PartMode.PartNumber n) := by
      rw [parse_part_size_shape alg (natChars n)
        (not_digit_mem_natChars n 't' (by decide))
        (not_digit_mem_natChars n 'a' (by decide))]
      rw [parse_u64_natChars n hb]
      dsimp only
      rw [if_neg (by omega)]
    refine ⟨hparse, ?_⟩
    rw [AWSETagCtx.from_str, hparse]
    dsimp only
    rw [standardCtx_from_str_name]

/-- Witness for C7 at a two-part `md5` context with no file size. -/
theorem claim_C7_witness :
    (AWSETagCtx.new ⟨HashAlg.md5, []⟩ (PartMode.PartNumber 2) none).part_mode =
      PartMode.PartNumber 2 ∧ 0 < 2 ∧
    (AWSETagCtx.new ⟨HashAlg.md5, []⟩ (PartMode.PartNumber 2) none).next_part_size =
      Except.error
        (Err.parseError "cannot use part number syntax without file size") :=
  ⟨by decide, by decide,
   (claim_C7 (AWSETagCtx.new ⟨HashAlg.md5, []⟩ (PartMode.PartNumber 2) none) 2
     (by decide) (by decide)).1 rfl⟩

end CloudChecksum
